import Mathlib

/-!
# AutoScribe core pipeline: a shallow embedding

This file embeds the analysis pipeline of the AutoScribe repository
(`src/core/`): the temporal data model (`data_structures.py`), the rhythm
quantizer (`rhythm_quanitzer.py`), the chord detector (`chord_detector.py`),
the voice separator (`voice_separator.py`), the hand assigner
(`hand_assigner.py`) and the difficulty adjuster (`difficulty_adjuster.py`),
and proves properties of the embedded definitions.

Modelling conventions:
* Python floats (times, tempi, thresholds, scores) are embedded as exact
  rationals `ℚ`; Python ints (pitches, velocities, counts) as `ℤ`
  (slice lengths as `ℕ`).  The float literals `0.4`/`0.6` in the swing
  window become `2/5`/`3/5`.
* Python code that raises `ValueError` is embedded as `Except String`.
* `list.sort` / `sorted` with a key are stable; they are embedded as
  `List.insertionSort` with a relation that is reflexive on key ties, which
  yields the same (unique) stable sort result.
* Python's `round` is round-half-to-even; it is embedded as `pyRound`.
* Python's `%` on floats (sign of the divisor) is embedded as `pyMod`.
-/

/-- `List.mapM` over `Except`, written by structural recursion so the
embedding of Python loops that build a list of validated objects is easy
to reason about: the first error aborts the whole list. -/
def mapExcept (f : α → Except String β) : List α → Except String (List β)
  | [] => Except.ok []
  | a :: l =>
    match f a with
    | Except.error e => Except.error e
    | Except.ok b =>
      match mapExcept f l with
      | Except.error e => Except.error e
      | Except.ok bs => Except.ok (b :: bs)

/-- `enumerate`-style map, by structural recursion (embeds Python's
`for i, x in enumerate(xs)`). -/
def mapWithIdx (f : Nat → α → β) : Nat → List α → List β
  | _, [] => []
  | i, a :: l => f i a :: mapWithIdx f (i + 1) l

/-- Python's `round`: round half to even, on exact rationals. -/
def pyRound (x : ℚ) : ℤ :=
  let f := ⌊x⌋
  let r := x - (f : ℚ)
  if r < 1 / 2 then f
  else if 1 / 2 < r then f + 1
  else if f % 2 = 0 then f else f + 1

/-- Python's `%` on floats: for a positive modulus the result lies in
`[0, m)`.  (Never called with modulus `0` in the embedded code.) -/
def pyMod (x m : ℚ) : ℚ := x - m * (⌊x / m⌋ : ℤ)

/-- Python `int()` truncation toward zero of a float. -/
def pyTrunc (x : ℚ) : ℤ := if x < 0 then -⌊-x⌋ else ⌊x⌋

/-! ## Data model (`src/core/data_structures.py`) -/

/-- `NoteType`: classification of a note's musical function. -/
inductive NoteType where
  | melody
  | harmony
  | bass
  | unknown
deriving DecidableEq, Repr

/-- `Note`: pitch (MIDI number), start/end in seconds, velocity, type.
A bare structure; the validation of `Note.__post_init__` lives in
`mkNote`. -/
structure Note where
  pitch : ℤ
  start : ℚ
  stop : ℚ
  velocity : ℤ
  note_type : NoteType
deriving DecidableEq, Repr

/-- `Note.duration` (`end - start`). -/
def Note.duration (n : Note) : ℚ := n.stop - n.start

/-- `Note.__post_init__`: pitch and velocity must be 0–127, start
non-negative, end strictly after start; a violation raises. -/
def mkNote (pitch : ℤ) (start stop : ℚ) (velocity : ℤ) (t : NoteType) :
    Except String Note :=
  if ¬(0 ≤ pitch ∧ pitch ≤ 127) then Except.error ("Invalid MIDI pitch")
  else if start < 0 then Except.error ("Start time cannot be negative")
  else if stop ≤ start then Except.error ("End time must be after start time")
  else if ¬(0 ≤ velocity ∧ velocity ≤ 127) then Except.error ("Invalid velocity")
  else Except.ok ⟨pitch, start, stop, velocity, t⟩

/-- A valid note: exactly the states `Note.__post_init__` lets through. -/
def Note.ValidNote (n : Note) : Prop :=
  0 ≤ n.pitch ∧ n.pitch ≤ 127 ∧ 0 ≤ n.start ∧ n.start < n.stop ∧
    0 ≤ n.velocity ∧ n.velocity ≤ 127

instance (n : Note) : Decidable n.ValidNote := by
  unfold Note.ValidNote; infer_instance

/-- Sort key of `PianoRoll.sort_by_time`: `(n.start, n.pitch)`. -/
def noteKey (n : Note) : ℚ × ℤ := (n.start, n.pitch)

/-- Lexicographic `≤` on the `(start, pitch)` key. -/
def keyLe (a b : Note) : Prop :=
  a.start < b.start ∨ (a.start = b.start ∧ a.pitch ≤ b.pitch)

instance : DecidableRel keyLe := fun a b => by unfold keyLe; infer_instance

instance : IsTotal Note keyLe where
  total a b := by
    unfold keyLe
    rcases lt_trichotomy a.start b.start with h | h | h
    · exact Or.inl (Or.inl h)
    · rcases le_total a.pitch b.pitch with hp | hp
      · exact Or.inl (Or.inr ⟨h, hp⟩)
      · exact Or.inr (Or.inr ⟨h.symm, hp⟩)
    · exact Or.inr (Or.inl h)

instance : IsTrans Note keyLe where
  trans a b c hab hbc := by
    unfold keyLe at *
    rcases hab with h1 | ⟨e1, p1⟩
    · rcases hbc with h2 | ⟨e2, _⟩
      · exact Or.inl (h1.trans h2)
      · exact Or.inl (e2 ▸ h1)
    · rcases hbc with h2 | ⟨e2, p2⟩
      · exact Or.inl (e1 ▸ h2)
      · exact Or.inr ⟨e1.trans e2, p1.trans p2⟩

/-- `PianoRoll.sort_by_time`: stable sort by `(start, pitch)`. -/
def sortByTime (notes : List Note) : List Note := List.insertionSort keyLe notes

/-- `PianoRoll`: notes plus tempo (BPM), time signature, key signature.
The constructor validation and in-place sort of `__post_init__` live in
`mkPianoRoll`. -/
structure PianoRoll where
  notes : List Note
  tempo : ℚ
  time_signature : ℤ × ℤ
  key_signature : ℤ
deriving DecidableEq, Repr

/-- `PianoRoll(...)`: validate tempo and time signature, then sort the
notes chronologically (then by pitch). -/
def mkPianoRoll (notes : List Note) (tempo : ℚ) (ts : ℤ × ℤ) (key : ℤ) :
    Except String PianoRoll :=
  if tempo ≤ 0 then Except.error ("Tempo must be positive")
  else if ts.1 ≤ 0 ∨ ts.2 ≤ 0 then Except.error ("Invalid time signature")
  else Except.ok ⟨sortByTime notes, tempo, ts, key⟩

/-- A valid roll: positive tempo and time signature, valid notes, and the
notes sorted by the `(start, pitch)` key (the `__post_init__` invariant). -/
def PianoRoll.ValidRoll (r : PianoRoll) : Prop :=
  0 < r.tempo ∧ 0 < r.time_signature.1 ∧ 0 < r.time_signature.2 ∧
    (∀ n ∈ r.notes, n.ValidNote) ∧ List.Sorted keyLe r.notes

instance (r : PianoRoll) : Decidable r.ValidRoll := by
  unfold PianoRoll.ValidRoll; infer_instance

/-- `PianoRoll.get_duration`: `max(n.end)` over the notes, `0` if empty. -/
def PianoRoll.get_duration (r : PianoRoll) : ℚ :=
  match r.notes.map Note.stop with
  | [] => 0
  | x :: xs => xs.foldl max x

/-- `Chord`: notes plus an optional root pitch. -/
structure Chord where
  notes : List Note
  root_pitch : Option ℤ
deriving DecidableEq, Repr

/-- `Chord.start`: earliest member onset, `0.0` for an empty chord. -/
def Chord.start (c : Chord) : ℚ :=
  match c.notes.map Note.start with
  | [] => 0
  | x :: xs => xs.foldl min x

/-- `sorted(set(...))` on integers: deduplicate (first occurrences) and
sort ascending. -/
def sortedDedup (l : List ℤ) : List ℤ :=
  List.insertionSort (fun a b => a ≤ b) l.dedup

/-- `Chord.pitches`: sorted list of the distinct pitches. -/
def Chord.pitches (c : Chord) : List ℤ := sortedDedup (c.notes.map Note.pitch)

/-! ## Rhythm quantizer (`src/core/rhythm_quanitzer.py`) -/

/-- `QuantizationConfig`. -/
structure QuantizationConfig where
  grid_resolution : String
  strength : ℚ
  min_duration : ℚ
  quantize_offsets : Bool
  swing : ℚ
deriving DecidableEq, Repr

/-- The defaults of `QuantizationConfig`. -/
def defaultQuantConfig : QuantizationConfig :=
  ⟨"16th", 1, 1 / 16, true, 0⟩

/-- `RhythmQuantizer.GRID_SIZES`: grid size in fractions of a beat. -/
def GRID_SIZES : List (String × ℚ) :=
  [("whole", 1), ("half", 1 / 2), ("quarter", 1 / 4), ("8th", 1 / 8),
   ("16th", 1 / 16), ("32nd", 1 / 32), ("triplet", 1 / 12)]

/-- Look up a grid name (`0` for a name that is not in the table; the
validated quantizer never hits that case). -/
def gridSizeOf (name : String) : ℚ :=
  match GRID_SIZES.find? (fun p => p.1 = name) with
  | some p => p.2
  | none => 0

/-- `RhythmQuantizer._validate_config` + `__init__`: an unknown grid name,
a strength outside `[0,1]` or a swing outside `[0,0.5]` is rejected before
any note data is seen; on success the configuration itself is the
constructed quantizer's state. -/
def mkRhythmQuantizer (cfg : QuantizationConfig) :
    Except String QuantizationConfig :=
  if (GRID_SIZES.find? (fun p => p.1 = cfg.grid_resolution)).isNone then
    Except.error ("Invalid grid resolution")
  else if ¬(0 ≤ cfg.strength ∧ cfg.strength ≤ 1) then
    Except.error ("Strength must be between 0 and 1")
  else if ¬(0 ≤ cfg.swing ∧ cfg.swing ≤ 1 / 2) then
    Except.error ("Swing must be between 0 and 0.5")
  else Except.ok cfg

/-- A configuration `_validate_config` accepts. -/
def QuantizationConfig.ValidCfg (cfg : QuantizationConfig) : Prop :=
  (GRID_SIZES.find? (fun p => p.1 = cfg.grid_resolution)).isSome ∧
    0 ≤ cfg.strength ∧ cfg.strength ≤ 1 ∧ 0 ≤ cfg.swing ∧ cfg.swing ≤ 1 / 2

instance (cfg : QuantizationConfig) : Decidable cfg.ValidCfg := by
  unfold QuantizationConfig.ValidCfg; infer_instance

/-- `RhythmQuantizer._apply_swing`: delay a time landing strictly between
40% and 60% of a two-grid-unit pair by `swing × grid_duration`. -/
def applySwing (swing grid_duration : ℚ) (time : ℚ) : ℚ :=
  let beat_pair_duration := grid_duration * 2
  let position_in_pair := pyMod time beat_pair_duration / beat_pair_duration
  if 2 / 5 < position_in_pair ∧ position_in_pair < 3 / 5 then
    time + swing * grid_duration
  else time

/-- `RhythmQuantizer._quantize_time`: snap to the nearest grid multiple,
apply swing when configured, blend with the original by `strength`, clamp
to non-negative. -/
def quantizeTime (cfg : QuantizationConfig) (grid_duration : ℚ) (time : ℚ) : ℚ :=
  let grid_position : ℤ := pyRound (time / grid_duration)
  let snapped_time := (grid_position : ℚ) * grid_duration
  let snapped_time :=
    if 0 < cfg.swing then applySwing cfg.swing grid_duration snapped_time
    else snapped_time
  let quantized_time := time * (1 - cfg.strength) + snapped_time * cfg.strength
  max 0 quantized_time

/-- `RhythmQuantizer._quantize_note`: quantize the start, then either
quantize the end (stretched to at least `min_duration` beats) or keep the
original duration; the resulting `Note(...)` construction re-validates. -/
def quantizeNote (cfg : QuantizationConfig) (grid_duration beat_duration : ℚ)
    (n : Note) : Except String Note :=
  let quantized_start := quantizeTime cfg grid_duration n.start
  let quantized_end :=
    if cfg.quantize_offsets then
      let q := quantizeTime cfg grid_duration n.stop
      let min_duration_seconds := cfg.min_duration * beat_duration
      if q - quantized_start < min_duration_seconds then
        quantized_start + min_duration_seconds
      else q
    else quantized_start + n.duration
  mkNote n.pitch quantized_start quantized_end n.velocity n.note_type

/-- `RhythmQuantizer.quantize`: quantize every note independently and build
a new `PianoRoll` (whose constructor re-sorts). -/
def quantize (cfg : QuantizationConfig) (roll : PianoRoll) :
    Except String PianoRoll :=
  if roll.notes = [] then Except.ok roll
  else
    let beat_duration := 60 / roll.tempo
    let grid_size_beats := gridSizeOf cfg.grid_resolution
    let grid_duration := beat_duration * grid_size_beats
    match mapExcept (quantizeNote cfg grid_duration beat_duration) roll.notes with
    | Except.error e => Except.error e
    | Except.ok qnotes =>
      mkPianoRoll qnotes roll.tempo roll.time_signature roll.key_signature

/-! ## Chord detector (`src/core/chord_detector.py`) -/

/-- `ChordDetectionConfig`. -/
structure ChordDetectionConfig where
  simultaneity_threshold : ℚ
  min_chord_size : ℤ
  analyze_chord_types : Bool
  merge_arpeggios : Bool
  arpeggio_threshold : ℚ
deriving DecidableEq, Repr

/-- The defaults of `ChordDetectionConfig`. -/
def defaultChordConfig : ChordDetectionConfig :=
  ⟨1 / 20, 2, true, false, 3 / 20⟩

/-- `ChordDetector.CHORD_TYPES`: interval patterns from the root. -/
def CHORD_TYPES : List (String × List ℤ) :=
  [("major", [0, 4, 7]), ("minor", [0, 3, 7]), ("diminished", [0, 3, 6]),
   ("augmented", [0, 4, 8]), ("major7", [0, 4, 7, 11]),
   ("minor7", [0, 3, 7, 10]), ("dominant7", [0, 4, 7, 10]),
   ("sus2", [0, 2, 7]), ("sus4", [0, 5, 7])]

/-- Append a note to the first group whose key is within the threshold
(the groups keep dict insertion order). Only called when such a group
exists. -/
def appendFirstMatch (thr : ℚ) (n : Note) :
    List (ℚ × List Note) → List (ℚ × List Note)
  | [] => []
  | g :: gs =>
    if |n.start - g.1| ≤ thr then (g.1, g.2 ++ [n]) :: gs
    else g :: appendFirstMatch thr n gs

/-- `groups[key].append(n)` on a `defaultdict`: append at an existing key,
else add a new entry at the end (dict insertion order). -/
def dictAppend (key : ℚ) (n : Note) :
    List (ℚ × List Note) → List (ℚ × List Note)
  | [] => [(key, [n])]
  | g :: gs =>
    if g.1 = key then (g.1, g.2 ++ [n]) :: gs
    else g :: dictAppend key n gs

/-- One step of `ChordDetector._group_by_onset`: scan the existing keys in
order for one within the threshold, else file the note under its own
onset. -/
def addToGroups (thr : ℚ) (gs : List (ℚ × List Note)) (n : Note) :
    List (ℚ × List Note) :=
  if gs.any (fun g => |n.start - g.1| ≤ thr) then appendFirstMatch thr n gs
  else dictAppend n.start n gs

/-- `ChordDetector._group_by_onset`: single-pass greedy bucketing of the
notes by onset, in input order. -/
def groupByOnset (thr : ℚ) (notes : List Note) : List (ℚ × List Note) :=
  notes.foldl (addToGroups thr) []

/-- `ChordDetector._find_root`: the lowest pitch (`None` impossible here
since `_create_chord` is only called on non-empty groups; `0` default for
the empty case keeps the function total). -/
def findRoot (notes : List Note) : Option ℤ :=
  match notes.map Note.pitch with
  | [] => none
  | p :: ps => some (ps.foldl min p)

/-- `ChordDetector._create_chord`: notes sorted by pitch; root analysis if
configured. -/
def createChord (cfg : ChordDetectionConfig) (notes : List Note) : Chord :=
  let sorted := List.insertionSort (fun a b : Note => a.pitch ≤ b.pitch) notes
  { notes := sorted,
    root_pitch := if cfg.analyze_chord_types then findRoot sorted else none }

/-- `ChordDetector.detect_chords` without the optional arpeggio merge:
group by onset, sort the groups by key, keep groups of at least
`min_chord_size` notes, and build chords. -/
def detectChordsCore (cfg : ChordDetectionConfig) (roll : PianoRoll) :
    List Chord :=
  if roll.notes = [] then []
  else
    let onset_groups := groupByOnset cfg.simultaneity_threshold roll.notes
    let sorted_groups :=
      List.insertionSort (fun a b : ℚ × List Note => a.1 ≤ b.1) onset_groups
    (sorted_groups.filter
        (fun g => cfg.min_chord_size ≤ (g.2.length : ℤ))).map
      (fun g => createChord cfg g.2)

/-- `ChordDetector._merge_chord_group`: pool the notes of a run of chords,
resetting every start to the earliest chord start (each `Note(...)`
re-validates). -/
def mergeChordGroup (group : List Chord) : Except String Chord :=
  match group with
  | [] => Except.ok ⟨[], none⟩
  | [c] => Except.ok c
  | _ =>
    let all_notes := group.flatMap Chord.notes
    let earliest_start :=
      match group.map Chord.start with
      | [] => 0
      | x :: xs => xs.foldl min x
    match
      mapExcept
        (fun n : Note =>
          mkNote n.pitch earliest_start n.stop n.velocity n.note_type)
        all_notes with
    | Except.error e => Except.error e
    | Except.ok adjusted => Except.ok ⟨adjusted, none⟩

/-- The running grouping of `ChordDetector._merge_arpeggios`: extend the
current run while a chord starts within `arpeggio_threshold` of the
previous chord in the run, else flush the run. -/
def mergeArpeggiosLoop (thr : ℚ) (current : List Chord) (last_start : ℚ) :
    List Chord → Except String (List Chord)
  | [] =>
    match mergeChordGroup current with
    | Except.error e => Except.error e
    | Except.ok c => Except.ok [c]
  | c :: cs =>
    if c.start - last_start ≤ thr then
      mergeArpeggiosLoop thr (current ++ [c]) c.start cs
    else
      match mergeChordGroup current with
      | Except.error e => Except.error e
      | Except.ok m =>
        match mergeArpeggiosLoop thr [c] c.start cs with
        | Except.error e => Except.error e
        | Except.ok rest => Except.ok (m :: rest)

/-- `ChordDetector._merge_arpeggios`. -/
def mergeArpeggios (thr : ℚ) (chords : List Chord) :
    Except String (List Chord) :=
  match chords with
  | [] => Except.ok []
  | c :: cs => mergeArpeggiosLoop thr [c] c.start cs

/-- `ChordDetector.detect_chords`: the merge pass can raise through
`Note(...)` re-validation, so the full detector is `Except`-valued. -/
def detectChords (cfg : ChordDetectionConfig) (roll : PianoRoll) :
    Except String (List Chord) :=
  let chords := detectChordsCore cfg roll
  if cfg.merge_arpeggios then mergeArpeggios cfg.arpeggio_threshold chords
  else Except.ok chords

/-- The rotated pattern of `identify_chord_type`'s inversion search:
`pattern[rotation:] + [p + 12 for p in pattern[:rotation]]`, then
normalised by `sorted([p % 12 for p in rotated])`. -/
def rotatedNormalized (pattern : List ℤ) (rotation : ℕ) : List ℤ :=
  let rotated := pattern.drop rotation ++ (pattern.take rotation).map (· + 12)
  List.insertionSort (fun a b => a ≤ b) (rotated.map (· % 12))

/-- `ChordDetector.identify_chord_type`: intervals from the lowest pitch,
mod 12, deduplicated and sorted; exact pattern match, then the rotation
("inversion") search, else `"unknown"`. -/
def identifyChordType (c : Chord) : Option String :=
  if c.pitches.length < 2 then none
  else
    let root :=
      match c.pitches with
      | [] => 0
      | p :: ps => ps.foldl min p
    let intervals := sortedDedup ((c.pitches.map (fun p => p - root)).map (· % 12))
    match CHORD_TYPES.find? (fun pt => pt.2 = intervals) with
    | some pt => some pt.1
    | none =>
      match
        CHORD_TYPES.findSome?
          (fun pt =>
            (List.range' 1 (pt.2.length - 1)).findSome?
              (fun rotation =>
                if intervals = rotatedNormalized pt.2 rotation then
                  some (pt.1 ++ " (inversion)")
                else none)) with
      | some s => some s
      | none => some ("unknown")

/-! ## Voice separator (`src/core/voice_separator.py`) -/

/-- `VoiceSeparationConfig`. -/
structure VoiceSeparationConfig where
  melody_pitch_threshold : ℤ
  bass_pitch_threshold : ℤ
  use_velocity_hints : Bool
  voice_spacing_threshold : ℤ
  max_melody_polyphony : ℕ
  track_voice_leading : Bool
deriving DecidableEq, Repr

/-- The defaults of `VoiceSeparationConfig`. -/
def defaultVoiceConfig : VoiceSeparationConfig :=
  ⟨60, 55, true, 3, 2, true⟩

/-- The running loop of `VoiceSeparator._create_time_windows`: a window
collects the notes starting within `window_size` of the window's first
note. -/
def timeWindowsLoop (window_size : ℚ) (window_start : ℚ)
    (current : List Note) : List Note → List (List Note)
  | [] => [current]
  | n :: l =>
    if n.start - window_start ≤ window_size then
      timeWindowsLoop window_size window_start (current ++ [n]) l
    else current :: timeWindowsLoop window_size n.start [n] l

/-- `VoiceSeparator._create_time_windows` (default window 100 ms). -/
def createTimeWindows (window_size : ℚ) (notes : List Note) :
    List (List Note) :=
  match List.insertionSort (fun a b : Note => a.start ≤ b.start) notes with
  | [] => []
  | n :: l => timeWindowsLoop window_size n.start [n] l

/-- `VoiceSeparator._mark_as`: a copy of the note with the given type
(`Note(...)` re-validates). -/
def markAs (n : Note) (t : NoteType) : Except String Note :=
  mkNote n.pitch n.start n.stop n.velocity t

/-- The melody candidates of `VoiceSeparator._classify_window` for a
multi-note window: the top `max_melody_polyphony` pitches, re-ranked by
velocity and cut to at most two when velocity hints are on. -/
def melodyCandidates (cfg : VoiceSeparationConfig) (notes : List Note) :
    List Note :=
  let sorted_by_pitch :=
    List.insertionSort (fun a b : Note => b.pitch ≤ a.pitch) notes
  let candidates := sorted_by_pitch.take cfg.max_melody_polyphony
  if cfg.use_velocity_hints then
    (List.insertionSort (fun a b : Note => b.velocity ≤ a.velocity)
        candidates).take
      (min 2 candidates.length)
  else candidates

/-- The bass candidate of a multi-note window: the last element of the
pitch-descending sort (the lowest pitch; `getLast?` is `some` on the
non-empty windows the separator builds). -/
def bassNoteOf (notes : List Note) : Option Note :=
  (List.insertionSort (fun a b : Note => b.pitch ≤ a.pitch) notes).getLast?

/-- The body of `_classify_window`'s loop over a multi-note window: a
melody candidate goes to melody; the bass candidate goes to bass only when
its pitch is at or below the bass threshold; everything else goes to
harmony. -/
def classifyStep (cfg : VoiceSeparationConfig) (candidates : List Note)
    (bass_note : Option Note)
    (acc : Except String (List Note × List Note × List Note)) (n : Note) :
    Except String (List Note × List Note × List Note) :=
  match acc with
  | Except.error e => Except.error e
  | Except.ok (m, h, b) =>
    if candidates.contains n then
      match markAs n NoteType.melody with
      | Except.error e => Except.error e
      | Except.ok x => Except.ok (m ++ [x], h, b)
    else if some n = bass_note ∧ n.pitch ≤ cfg.bass_pitch_threshold then
      match markAs n NoteType.bass with
      | Except.error e => Except.error e
      | Except.ok x => Except.ok (m, h, b ++ [x])
    else
      match markAs n NoteType.harmony with
      | Except.error e => Except.error e
      | Except.ok x => Except.ok (m, h ++ [x], b)

/-- `VoiceSeparator._classify_window`: a single note is classified by
absolute pitch; a multi-note window sends the melody candidates to melody,
the lowest pitch to bass only when it is at or below the bass threshold,
the rest to harmony; a bass note more than 12 semitones above the
threshold is demoted to harmony. -/
def classifyWindow (cfg : VoiceSeparationConfig) (notes : List Note) :
    Except String (List Note × List Note × List Note) :=
  match notes with
  | [] => Except.ok ([], [], [])
  | [n] =>
    if cfg.melody_pitch_threshold ≤ n.pitch then
      match markAs n NoteType.melody with
      | Except.error e => Except.error e
      | Except.ok m => Except.ok ([m], [], [])
    else if n.pitch ≤ cfg.bass_pitch_threshold then
      match markAs n NoteType.bass with
      | Except.error e => Except.error e
      | Except.ok b => Except.ok ([], [], [b])
    else
      match markAs n NoteType.harmony with
      | Except.error e => Except.error e
      | Except.ok h => Except.ok ([], [h], [])
  | _ =>
    match notes.foldl
        (classifyStep cfg (melodyCandidates cfg notes) (bassNoteOf notes))
        (Except.ok ([], [], [])) with
    | Except.error e => Except.error e
    | Except.ok (m, h, b) =>
      match b.head? with
      | some b0 =>
        if cfg.bass_pitch_threshold + 12 < b0.pitch then
          Except.ok (m, h ++ b, [])
        else Except.ok (m, h, b)
      | none => Except.ok (m, h, b)

/-- The accumulation step of `separate_voices` over the time windows. -/
def sepStep (cfg : VoiceSeparationConfig)
    (acc : Except String (List Note × List Note × List Note))
    (w : List Note) : Except String (List Note × List Note × List Note) :=
  match acc with
  | Except.error e => Except.error e
  | Except.ok (ms, hs, bs) =>
    match classifyWindow cfg w with
    | Except.error e => Except.error e
    | Except.ok (m, h, b) => Except.ok (ms ++ m, hs ++ h, bs ++ b)

/-- `VoiceSeparator.separate_voices`: classify window by window and build
the melody, harmony and bass rolls (each constructor re-sorts). An empty
input yields one shared empty roll. -/
def separateVoices (cfg : VoiceSeparationConfig) (roll : PianoRoll) :
    Except String (PianoRoll × PianoRoll × PianoRoll) :=
  if roll.notes = [] then
    match mkPianoRoll [] roll.tempo roll.time_signature roll.key_signature with
    | Except.error e => Except.error e
    | Except.ok empty => Except.ok (empty, empty, empty)
  else
    let windows := createTimeWindows (1 / 10) roll.notes
    match windows.foldl (sepStep cfg) (Except.ok ([], [], [])) with
    | Except.error e => Except.error e
    | Except.ok (ms, hs, bs) =>
      match mkPianoRoll ms roll.tempo roll.time_signature roll.key_signature with
      | Except.error e => Except.error e
      | Except.ok melody_roll =>
        match mkPianoRoll hs roll.tempo roll.time_signature roll.key_signature with
        | Except.error e => Except.error e
        | Except.ok harmony_roll =>
          match mkPianoRoll bs roll.tempo roll.time_signature roll.key_signature with
          | Except.error e => Except.error e
          | Except.ok bass_roll => Except.ok (melody_roll, harmony_roll, bass_roll)

/-! ## Hand assigner (`src/core/hand_assigner.py`) -/

/-- `Hand`. -/
inductive Hand where
  | left
  | right
  | either
deriving DecidableEq, Repr

/-- `HandAssignment`: a note, its hand, and a difficulty score. -/
structure HandAssignment where
  note : Note
  hand : Hand
  difficulty : ℚ
deriving DecidableEq, Repr

/-- `HandAssignmentConfig`. -/
structure HandAssignmentConfig where
  default_split_pitch : ℤ
  allow_crossover : Bool
  max_hand_stretch : ℤ
  prefer_melody_right : Bool
  max_notes_per_hand : ℤ
  optimize_playability : Bool
  min_right_hand_pitch : ℤ
  max_left_hand_pitch : ℤ
deriving DecidableEq, Repr

/-- The defaults of `HandAssignmentConfig`. -/
def defaultHandConfig : HandAssignmentConfig :=
  ⟨60, true, 12, true, 5, true, 48, 72⟩

/-- The running loop of `HandAssigner._group_by_time`: threshold clustering
anchored at each group's first note (the code compares against
`current_group[0].start`). -/
def groupByTimeLoop (threshold : ℚ) (anchor : ℚ) (current : List Note) :
    List Note → List (List Note)
  | [] => [current]
  | n :: l =>
    if n.start - anchor ≤ threshold then
      groupByTimeLoop threshold anchor (current ++ [n]) l
    else current :: groupByTimeLoop threshold n.start [n] l

/-- `HandAssigner._group_by_time` (threshold 50 ms). -/
def groupByTime (threshold : ℚ) (notes : List Note) : List (List Note) :=
  match List.insertionSort (fun a b : Note => a.start ≤ b.start) notes with
  | [] => []
  | n :: l => groupByTimeLoop threshold n.start [n] l

/-- `HandAssigner._get_expected_hand`: the simple pitch rule. -/
def expectedHand (cfg : HandAssignmentConfig) (n : Note) : Hand :=
  if cfg.default_split_pitch ≤ n.pitch then Hand.right else Hand.left

/-- `HandAssigner._assign_single_note`. -/
def assignSingleNote (cfg : HandAssignmentConfig) (n : Note) : HandAssignment :=
  if n.pitch < cfg.default_split_pitch then ⟨n, Hand.left, 0⟩
  else ⟨n, Hand.right, 0⟩

/-- `HandAssigner._find_split_point`: index of the first note closest in
pitch to the split pitch, forced away from index 0 so both hands get a
note when two or more are present. -/
def findSplitPoint (cfg : HandAssignmentConfig) (sorted_notes : List Note) :
    ℕ :=
  if sorted_notes.length ≤ 1 then 0
  else
    let best :=
      (mapWithIdx (fun i n => (i, |n.pitch - cfg.default_split_pitch|)) 0
            sorted_notes).foldl
        (fun best x => if x.2 < best.2 then x else best) (0, (128 : ℤ) * 128)
    let best_idx := best.1
    if best_idx = 0 ∧ 1 < sorted_notes.length then 1
    else if best_idx = sorted_notes.length then sorted_notes.length - 1
    else best_idx

/-- `HandAssigner._calculate_difficulty`: stretch, polyphony and
comfortable-range penalties, capped at 1. -/
def calculateDifficulty (cfg : HandAssignmentConfig) (n : Note) (hand : Hand)
    (all_notes : List Note) : ℚ :=
  let same_hand_notes := all_notes.filter (fun m => expectedHand cfg m = hand)
  let d1 : ℚ :=
    if 1 < same_hand_notes.length then
      let pitches := same_hand_notes.map Note.pitch
      let hi := match pitches with | [] => 0 | p :: ps => ps.foldl max p
      let lo := match pitches with | [] => 0 | p :: ps => ps.foldl min p
      if cfg.max_hand_stretch < hi - lo then
        ((hi - lo - cfg.max_hand_stretch : ℤ) : ℚ) / 12
      else 0
    else 0
  let d2 : ℚ :=
    if cfg.max_notes_per_hand < (same_hand_notes.length : ℤ) then 3 / 10 else 0
  let d3 : ℚ :=
    match hand with
    | Hand.right => if n.pitch < cfg.min_right_hand_pitch then 1 / 5 else 0
    | Hand.left => if cfg.max_left_hand_pitch < n.pitch then 1 / 5 else 0
    | Hand.either => 0
  min (d1 + d2 + d3) 1

/-- The stable-sort ordering `_redistribute_notes` uses on the overloaded
hand's (index, assignment) pairs: pitch descending when moving to the
right hand, ascending when moving to the left. -/
def redistributeLe (to_hand : Hand) (x y : ℕ × HandAssignment) : Prop :=
  if to_hand = Hand.right then y.2.note.pitch ≤ x.2.note.pitch
  else x.2.note.pitch ≤ y.2.note.pitch

instance (t : Hand) : DecidableRel (redistributeLe t) := fun x y => by
  unfold redistributeLe; infer_instance

/-- `HandAssigner._redistribute_notes`: move the up to two most movable
notes (highest pitches for left→right, lowest for right→left) of the
overloaded hand, adding a crossover penalty of 0.1. Mutation of the shared
assignment objects is embedded by flipping the chosen positions. -/
def redistributeNotes (assignments : List HandAssignment) (from_hand to_hand : Hand) :
    List HandAssignment :=
  let overloaded_idx :=
    (mapWithIdx (fun i a => (i, a)) 0 assignments).filter
      (fun x => x.2.hand = from_hand)
  if overloaded_idx = [] then assignments
  else
    let sorted_idx := List.insertionSort (redistributeLe to_hand) overloaded_idx
    let chosen := (sorted_idx.take 2).map (fun x => x.1)
    mapWithIdx
      (fun i a =>
        if chosen.contains i then
          ⟨a.note, to_hand, a.difficulty + 1 / 10⟩
        else a)
      0 assignments

/-- `HandAssigner._validate_and_adjust`: both hand counts are taken before
any redistribution (the second check uses the stale count). -/
def validateAndAdjust (cfg : HandAssignmentConfig)
    (assignments : List HandAssignment) : List HandAssignment :=
  let right_count := (assignments.filter (fun a => a.hand = Hand.right)).length
  let left_count := (assignments.filter (fun a => a.hand = Hand.left)).length
  let assignments :=
    if cfg.max_notes_per_hand < (right_count : ℤ) then
      redistributeNotes assignments Hand.right Hand.left
    else assignments
  if cfg.max_notes_per_hand < (left_count : ℤ) then
    redistributeNotes assignments Hand.left Hand.right
  else assignments

/-- `HandAssigner._assign_group`: pitch-sort the cluster, split at
`_find_split_point` (lower part left, upper part right), score each note,
then `_validate_and_adjust`. -/
def assignGroup (cfg : HandAssignmentConfig) (notes : List Note) :
    List HandAssignment :=
  match notes with
  | [] => []
  | [n] => [assignSingleNote cfg n]
  | _ =>
    let sorted_notes :=
      List.insertionSort (fun a b : Note => a.pitch ≤ b.pitch) notes
    let split_idx := findSplitPoint cfg sorted_notes
    let assignments :=
      mapWithIdx
        (fun i n =>
          let hand := if i < split_idx then Hand.left else Hand.right
          ⟨n, hand, calculateDifficulty cfg n hand sorted_notes⟩)
        0 sorted_notes
    validateAndAdjust cfg assignments

/-- `HandAssigner.assign_hands`: cluster by time, assign each cluster, and
split the assignments into a right-hand and a left-hand roll. -/
def assignHands (cfg : HandAssignmentConfig) (roll : PianoRoll) :
    Except String (PianoRoll × PianoRoll) :=
  if roll.notes = [] then
    match mkPianoRoll [] roll.tempo roll.time_signature roll.key_signature with
    | Except.error e => Except.error e
    | Except.ok empty => Except.ok (empty, empty)
  else
    let time_groups := groupByTime (1 / 20) roll.notes
    let assignments := time_groups.flatMap (assignGroup cfg)
    let right_notes :=
      (assignments.filter (fun a => a.hand = Hand.right)).map
        HandAssignment.note
    let left_notes :=
      (assignments.filter (fun a => a.hand = Hand.left)).map
        HandAssignment.note
    match mkPianoRoll right_notes roll.tempo roll.time_signature
        roll.key_signature with
    | Except.error e => Except.error e
    | Except.ok right_hand =>
      match mkPianoRoll left_notes roll.tempo roll.time_signature
          roll.key_signature with
      | Except.error e => Except.error e
      | Except.ok left_hand => Except.ok (right_hand, left_hand)

/-! ## Difficulty adjuster (`src/core/difficulty_adjuster.py`)

The committed `difficulty_adjuster.py` does not parse as Python:
`_reduce_stretches` (lines 364–400) is dedented to column 0 — a
module-level function whose body sits at depth 8 — so the next method
definition at depth 4 raises `IndentationError` (line 402) and the module
can never be imported.  The definitions below embed the file's evident
intent: `_reduce_stretches` as the `DifficultyAdjuster` method it is
written as (it takes `self` and is called as `self._reduce_stretches`),
everything else exactly as the source text reads. -/

/-- `DifficultyLevel`. -/
inductive DifficultyLevel where
  | beginner
  | easy
  | intermediate
  | advanced
  | expert
deriving DecidableEq, Repr

/-- The thresholds of one entry of `DifficultyAdjuster.LEVEL_PARAMS`. -/
structure LevelParams where
  max_notes_per_second : ℚ
  max_simultaneous_notes : ℤ
  max_hand_stretch : ℤ
  allow_black_keys : Bool
  max_tempo : ℚ
deriving DecidableEq, Repr

/-- `DifficultyAdjuster.LEVEL_PARAMS`. -/
def LEVEL_PARAMS : DifficultyLevel → LevelParams
  | DifficultyLevel.beginner => ⟨4, 2, 5, false, 100⟩
  | DifficultyLevel.easy => ⟨6, 3, 7, true, 120⟩
  | DifficultyLevel.intermediate => ⟨8, 4, 9, true, 140⟩
  | DifficultyLevel.advanced => ⟨12, 5, 12, true, 180⟩
  | DifficultyLevel.expert => ⟨20, 8, 15, true, 240⟩

/-- `DifficultyConfig` (simplification/complication flags and the target
level; the trailing free-standing thresholds of the dataclass are not read
by the simplification path and are omitted). -/
structure DifficultyConfig where
  target_level : DifficultyLevel
  remove_fast_passages : Bool
  simplify_chords : Bool
  reduce_hand_stretches : Bool
  remove_ornaments : Bool
  simplify_rhythms : Bool
  add_arpeggios : Bool
  enhance_voicing : Bool
  add_bass_movement : Bool
deriving DecidableEq, Repr

/-- The defaults of `DifficultyConfig` at a given target level. -/
def defaultDifficultyConfig (target : DifficultyLevel) : DifficultyConfig :=
  ⟨target, true, true, true, true, true, true, true, true⟩

/-- The enumeration order of `adjust_difficulty`'s `level_order` and of the
scoring loop in `_analyze_difficulty`. -/
def levelOrder : List DifficultyLevel :=
  [DifficultyLevel.beginner, DifficultyLevel.easy,
   DifficultyLevel.intermediate, DifficultyLevel.advanced,
   DifficultyLevel.expert]

/-- `level_order.index(...)`. -/
def levelIdx (lv : DifficultyLevel) : ℕ :=
  match lv with
  | DifficultyLevel.beginner => 0
  | DifficultyLevel.easy => 1
  | DifficultyLevel.intermediate => 2
  | DifficultyLevel.advanced => 3
  | DifficultyLevel.expert => 4

/-- `DifficultyAdjuster._get_max_simultaneous_notes`: the largest detected
chord (default detector), `1` when there are no chords. -/
def getMaxSimultaneousNotes (roll : PianoRoll) : ℤ :=
  match (detectChordsCore defaultChordConfig roll).map
      (fun c => (c.notes.length : ℤ)) with
  | [] => 1
  | x :: xs => xs.foldl max x

/-- `DifficultyAdjuster._get_max_hand_stretch`: the widest pitch span of a
detected chord with at least two notes, `0` when there are none. -/
def getMaxHandStretch (roll : PianoRoll) : ℤ :=
  (detectChordsCore defaultChordConfig roll).foldl
    (fun acc c =>
      if 2 ≤ c.notes.length then
        let pitches := c.notes.map Note.pitch
        let hi := match pitches with | [] => 0 | p :: ps => ps.foldl max p
        let lo := match pitches with | [] => 0 | p :: ps => ps.foldl min p
        max acc (hi - lo)
      else acc)
    0

/-- Notes per second as `_analyze_difficulty` computes it:
`len(notes) / duration` when the duration is positive, else `0`. -/
def notesPerSecond (roll : PianoRoll) : ℚ :=
  if 0 < roll.get_duration then (roll.notes.length : ℚ) / roll.get_duration
  else 0

/-- `DifficultyAdjuster._analyze_difficulty`: score every tier (one point
per satisfied threshold) and return the first best-scoring tier. -/
def analyzeDifficulty (roll : PianoRoll) : DifficultyLevel :=
  if roll.notes = [] then DifficultyLevel.beginner
  else
    let nps := notesPerSecond roll
    let max_simultaneous := getMaxSimultaneousNotes roll
    let max_stretch := getMaxHandStretch roll
    let scores :=
      levelOrder.map
        (fun lv =>
          let params := LEVEL_PARAMS lv
          let s1 : ℕ := if nps ≤ params.max_notes_per_second then 1 else 0
          let s2 : ℕ :=
            if max_simultaneous ≤ params.max_simultaneous_notes then 1 else 0
          let s3 : ℕ := if max_stretch ≤ params.max_hand_stretch then 1 else 0
          (lv, s1 + s2 + s3))
    match scores with
    | [] => DifficultyLevel.beginner
    | s :: rest =>
      (rest.foldl (fun best x => if best.2 < x.2 then x else best) s).1

/-- `DifficultyAdjuster._select_important_notes`: score by velocity (40%),
capped duration (30%) and pitch extremity (30%), stable-sort descending
and keep the top `count`. -/
def selectImportantNotes (notes : List Note) (count : ℕ) : List Note :=
  let pitches := notes.map Note.pitch
  let hi := match pitches with | [] => 0 | p :: ps => ps.foldl max p
  let lo := match pitches with | [] => 0 | p :: ps => ps.foldl min p
  let scored :=
    notes.map
      (fun n =>
        let score : ℚ :=
          (n.velocity : ℚ) / 127 * (2 / 5) + min n.duration 1 * (3 / 10) +
            (if n.pitch = hi ∨ n.pitch = lo then (1 : ℚ) else 0) * (3 / 10)
        (score, n))
  ((List.insertionSort (fun a b : ℚ × Note => b.1 ≤ a.1) scored).take
      count).map
    (fun x => x.2)

/-- A 1-second window of `_remove_fast_notes`: kept whole when within the
target's notes-per-second cap, else thinned to the top `int(cap)` notes. -/
def processFastWindow (max_notes : ℚ) (window : List Note) : List Note :=
  if (window.length : ℚ) ≤ max_notes then window
  else selectImportantNotes window (pyTrunc max_notes).toNat

/-- The window loop of `_remove_fast_notes` (strict 1-second windows
anchored at each window's opening note). -/
def fastNotesLoop (max_notes : ℚ) (window_start : ℚ) (current : List Note) :
    List Note → List Note
  | [] => processFastWindow max_notes current
  | n :: l =>
    if n.start - window_start < 1 then
      fastNotesLoop max_notes window_start (current ++ [n]) l
    else
      processFastWindow max_notes current ++ fastNotesLoop max_notes n.start [n] l

/-- `DifficultyAdjuster._remove_fast_notes`. -/
def removeFastNotes (max_notes : ℚ) (notes : List Note) : List Note :=
  if notes = [] then notes
  else
    let sorted_notes :=
      List.insertionSort (fun a b : Note => a.start ≤ b.start) notes
    match sorted_notes with
    | [] => []
    | n0 :: _ => fastNotesLoop max_notes n0.start [] sorted_notes

/-- `DifficultyAdjuster._simplify_chord_voicings`: detect chords on a
scratch roll (whose constructor sorts the working list in place — the
trailing loop therefore walks the sorted list), thin every oversized chord
to its outer voices plus the highest middle voices, and keep non-chord
notes that lie at no processed chord onset. -/
def simplifyChordVoicings (max_chord_size : ℤ) (notes : List Note) :
    List Note :=
  let sorted_notes := sortByTime notes
  let temp_roll : PianoRoll := ⟨sorted_notes, 120, (4, 4), 0⟩
  let chords := detectChordsCore defaultChordConfig temp_roll
  let step :=
    chords.foldl
      (fun (acc : List Note × List ℚ) c =>
        let kept :=
          if (c.notes.length : ℤ) ≤ max_chord_size then c.notes
          else
            let chord_notes :=
              List.insertionSort (fun a b : Note => a.pitch ≤ b.pitch) c.notes
            match chord_notes with
            | [] => []
            | c0 :: rest =>
              let last := rest.getLastD c0
              let kept0 := [c0, last]
              let remaining := max_chord_size - 2
              if 0 < remaining ∧ 2 < chord_notes.length then
                let middle := chord_notes.drop 1 |>.dropLast
                let middle_sorted :=
                  List.insertionSort (fun a b : Note => b.pitch ≤ a.pitch)
                    middle
                kept0 ++ middle_sorted.take remaining.toNat
              else kept0
        (acc.1 ++ kept, acc.2 ++ [c.start]))
      ([], [])
  step.1 ++
    sorted_notes.filter
      (fun n => ¬ step.2.any (fun t => |n.start - t| < 1 / 20))

/-- `_reduce_stretches` (modelled as the method the mis-indented source
evidently intends): a chord wider than the target's maximum stretch keeps
only its outer voices — note that the kept pair spans the same interval as
the original chord. -/
def reduceStretches (max_stretch : ℤ) (notes : List Note) : List Note :=
  let sorted_notes := sortByTime notes
  let temp_roll : PianoRoll := ⟨sorted_notes, 120, (4, 4), 0⟩
  let chords := detectChordsCore defaultChordConfig temp_roll
  let step :=
    chords.foldl
      (fun (acc : List Note × List ℚ) c =>
        if c.notes.length ≤ 1 then (acc.1 ++ c.notes, acc.2)
        else
          let chord_notes :=
            List.insertionSort (fun a b : Note => a.pitch ≤ b.pitch) c.notes
          let pitches := chord_notes.map Note.pitch
          let hi := match pitches with | [] => 0 | p :: ps => ps.foldl max p
          let lo := match pitches with | [] => 0 | p :: ps => ps.foldl min p
          let kept :=
            if hi - lo ≤ max_stretch then c.notes
            else
              match chord_notes with
              | [] => []
              | c0 :: rest => [c0, rest.getLastD c0]
          (acc.1 ++ kept, acc.2 ++ [c.start]))
      ([], [])
  step.1 ++
    sorted_notes.filter
      (fun n => ¬ step.2.any (fun t => |n.start - t| < 1 / 20))

/-- `DifficultyAdjuster._simplify_rhythms`: snap every duration to the
nearest of 16th/8th/quarter/half/whole (first on ties), rebuilding each
note (which re-validates). -/
def simplifyRhythms (notes : List Note) : Except String (List Note) :=
  mapExcept
    (fun n =>
      let closest :=
        [(1 : ℚ) / 4, 1 / 2, 1, 2].foldl
          (fun best d =>
            if |d - n.duration| < |best - n.duration| then d else best)
          (1 / 8)
      mkNote n.pitch n.start (n.start + closest) n.velocity n.note_type)
    notes

/-- `DifficultyAdjuster._remove_ornaments`: drop notes shorter than
100 ms. -/
def removeOrnaments (notes : List Note) : List Note :=
  notes.filter (fun n => 1 / 10 ≤ n.duration)

/-- `DifficultyAdjuster._simplify`: the five configurable reduction steps,
then a new roll at the tempo capped to the target's maximum. -/
def simplifyRoll (cfg : DifficultyConfig) (roll : PianoRoll) :
    Except String PianoRoll :=
  let params := LEVEL_PARAMS cfg.target_level
  let notes := roll.notes
  let notes :=
    if cfg.remove_fast_passages then
      removeFastNotes params.max_notes_per_second notes
    else notes
  let notes :=
    if cfg.simplify_chords then
      simplifyChordVoicings params.max_simultaneous_notes notes
    else notes
  let notes :=
    if cfg.reduce_hand_stretches then reduceStretches params.max_hand_stretch notes
    else notes
  match (if cfg.simplify_rhythms then simplifyRhythms notes
    else Except.ok notes) with
  | Except.error e => Except.error e
  | Except.ok notes =>
    let notes := if cfg.remove_ornaments then removeOrnaments notes else notes
    mkPianoRoll notes (min roll.tempo params.max_tempo) roll.time_signature
      roll.key_signature

/-- `DifficultyAdjuster.adjust_difficulty` (with `_complicate`'s
placeholder returning the original roll): pass through at the target
level, simplify below it, return the input above it. -/
def adjustDifficulty (cfg : DifficultyConfig) (roll : PianoRoll) :
    Except String PianoRoll :=
  let current := analyzeDifficulty roll
  if current = cfg.target_level then Except.ok roll
  else if levelIdx cfg.target_level < levelIdx current then
    simplifyRoll cfg roll
  else Except.ok roll

/-! ## A store semantics for the pipeline's heap effects

Python mutates only through (a) `PianoRoll.__post_init__` sorting the list
it is handed in place and (b) attribute assignment; no pipeline stage
assigns to an input-reachable attribute, and each stage hands the
constructor freshly built lists.  To make the "no stage mutates its input"
claim a real statement, the note-list of every `PianoRoll` that crosses a
stage boundary lives in an explicit store (address → list); constructing a
roll allocates a fresh address holding the sorted list.  Working lists
that never escape a stage (e.g. the scratch rolls inside the difficulty
steps) stay pure values: no reference to them survives the call. -/

/-- The heap of note-lists. -/
abbrev Store := List (List Note)

/-- A `PianoRoll` object whose note-list lives in the store. -/
structure RollRef where
  addr : ℕ
  tempo : ℚ
  time_signature : ℤ × ℤ
  key_signature : ℤ

/-- Read a roll reference's note-list. -/
def readNotes (s : Store) (r : RollRef) : List Note :=
  List.getD s r.addr []

/-- The value of the roll a reference denotes. -/
def rollOfRef (s : Store) (r : RollRef) : PianoRoll :=
  ⟨readNotes s r, r.tempo, r.time_signature, r.key_signature⟩

/-- `RhythmQuantizer.quantize` on the store: the empty-input fast path
returns the input object itself; otherwise the output roll's fresh list is
allocated (and sorted in place by the constructor). -/
def quantizeS (cfg : QuantizationConfig) (s : Store) (r : RollRef) :
    Store × Except String RollRef :=
  if readNotes s r = [] then (s, Except.ok r)
  else
    match quantize cfg (rollOfRef s r) with
    | Except.error e => (s, Except.error e)
    | Except.ok out =>
      (s ++ [out.notes],
        Except.ok ⟨s.length, out.tempo, out.time_signature, out.key_signature⟩)

/-- `ChordDetector.detect_chords` on the store: chords are plain values
holding note values; no roll is constructed and nothing is written. -/
def detectChordsS (cfg : ChordDetectionConfig) (s : Store) (r : RollRef) :
    Store × Except String (List Chord) :=
  (s, detectChords cfg (rollOfRef s r))

/-- `VoiceSeparator.separate_voices` on the store: the empty-input path
allocates one empty roll shared three ways; otherwise three fresh rolls. -/
def separateVoicesS (cfg : VoiceSeparationConfig) (s : Store) (r : RollRef) :
    Store × Except String (RollRef × RollRef × RollRef) :=
  if readNotes s r = [] then
    match separateVoices cfg (rollOfRef s r) with
    | Except.error e => (s, Except.error e)
    | Except.ok (m, _, _) =>
      let er : RollRef := ⟨s.length, m.tempo, m.time_signature, m.key_signature⟩
      (s ++ [m.notes], Except.ok (er, er, er))
  else
    match separateVoices cfg (rollOfRef s r) with
    | Except.error e => (s, Except.error e)
    | Except.ok (m, h, b) =>
      (s ++ [m.notes, h.notes, b.notes],
        Except.ok
          (⟨s.length, m.tempo, m.time_signature, m.key_signature⟩,
            ⟨s.length + 1, h.tempo, h.time_signature, h.key_signature⟩,
            ⟨s.length + 2, b.tempo, b.time_signature, b.key_signature⟩))

/-- `HandAssigner.assign_hands` on the store: the empty-input path
allocates one empty roll shared both ways; otherwise two fresh rolls. -/
def assignHandsS (cfg : HandAssignmentConfig) (s : Store) (r : RollRef) :
    Store × Except String (RollRef × RollRef) :=
  if readNotes s r = [] then
    match assignHands cfg (rollOfRef s r) with
    | Except.error e => (s, Except.error e)
    | Except.ok (rh, _) =>
      let er : RollRef := ⟨s.length, rh.tempo, rh.time_signature, rh.key_signature⟩
      (s ++ [rh.notes], Except.ok (er, er))
  else
    match assignHands cfg (rollOfRef s r) with
    | Except.error e => (s, Except.error e)
    | Except.ok (rh, lh) =>
      (s ++ [rh.notes, lh.notes],
        Except.ok
          (⟨s.length, rh.tempo, rh.time_signature, rh.key_signature⟩,
            ⟨s.length + 1, lh.tempo, lh.time_signature, lh.key_signature⟩))

/-- `DifficultyAdjuster.adjust_difficulty` on the store: the pass-through
and complication paths return the input object itself; the simplification
path allocates the one roll it builds. -/
def adjustDifficultyS (cfg : DifficultyConfig) (s : Store) (r : RollRef) :
    Store × Except String RollRef :=
  let current := analyzeDifficulty (rollOfRef s r)
  if current = cfg.target_level then (s, Except.ok r)
  else if levelIdx cfg.target_level < levelIdx current then
    match simplifyRoll cfg (rollOfRef s r) with
    | Except.error e => (s, Except.error e)
    | Except.ok out =>
      (s ++ [out.notes],
        Except.ok ⟨s.length, out.tempo, out.time_signature, out.key_signature⟩)
  else (s, Except.ok r)

/-! ## Concrete inputs -/

/-- A raw (unvalidated-by-construction, but valid) note literal. -/
def nt (pitch : ℤ) (start stop : ℚ) : Note := ⟨pitch, start, stop, 64, NoteType.unknown⟩

/-- C1's scenario roll: one six-note cluster spanning 15 semitones, half a
second long, at 120 BPM — well above the beginner tier. -/
def c1roll : PianoRoll :=
  ⟨[nt 60 0 (1 / 2), nt 63 0 (1 / 2), nt 66 0 (1 / 2), nt 69 0 (1 / 2),
      nt 72 0 (1 / 2), nt 75 0 (1 / 2)], 120, (4, 4), 0⟩

/-- What the (intent-modelled) simplification produces on `c1roll`: the two
outer voices, at the beginner tempo cap. -/
def c1out : PianoRoll :=
  ⟨[nt 60 0 (1 / 2), nt 75 0 (1 / 2)], 100, (4, 4), 0⟩

/-- C2's roll: one 3-note window whose lowest pitch, 60, lies between the
bass threshold (55) and the threshold + 12. -/
def c2roll : PianoRoll := ⟨[nt 60 0 1, nt 70 0 1, nt 80 0 1], 120, (4, 4), 0⟩

/-- C3's chord: E4–G4–B4–C5, a first-inversion C-major7 (intervals
`[0, 3, 7, 8]`, a cyclic rotation of `[0, 4, 7, 11]`). -/
def c3chord : Chord := ⟨[nt 64 0 1, nt 67 0 1, nt 71 0 1, nt 72 0 1], none⟩

/-- C7's roll: a single note at the default split pitch. -/
def c7roll : PianoRoll := ⟨[nt 60 0 (1 / 2)], 120, (4, 4), 0⟩

/-- The right-hand roll `assign_hands` produces on `c7roll`: pitch 60 is at
the split pitch, so the single note goes right. -/
def c7rh : PianoRoll := ⟨[nt 60 0 (1 / 2)], 120, (4, 4), 0⟩

/-- The left-hand roll `assign_hands` produces on `c7roll`: empty. -/
def c7lh : PianoRoll := ⟨[], 120, (4, 4), 0⟩

/-- The only values `identify_chord_type` can return: `None`, a bare
pattern name, or `"unknown"` — never an `"(inversion)"` string. -/
def allowedChordResults : List (Option String) :=
  none :: some ("unknown") :: CHORD_TYPES.map (fun pt => some pt.1)

/-- C5's configuration: full-strength 16th-note grid with maximum swing. -/
def c5cfg : QuantizationConfig := ⟨"16th", 1, 1 / 16, true, 1 / 2⟩

/-- C5's roll: one note starting on an odd grid line (1/32 s at 120 BPM). -/
def c5roll : PianoRoll := ⟨[nt 60 (1 / 32) (17 / 32)], 120, (4, 4), 0⟩

/-- `c5roll` after one quantization pass: the swung onset 3/64. -/
def c5once : PianoRoll := ⟨[nt 60 (3 / 64) (35 / 64)], 120, (4, 4), 0⟩

/-- `c5roll` after two passes: the onset has moved on to 1/16. -/
def c5twice : PianoRoll := ⟨[nt 60 (1 / 16) (9 / 16)], 120, (4, 4), 0⟩

/-- C6's roll: two notes 10 ms apart, inside the 50 ms default
simultaneity threshold, so they form one onset bucket. -/
def c6roll : PianoRoll := ⟨[nt 60 0 1, nt 64 (1 / 100) 1], 120, (4, 4), 0⟩

/-- The single chord `detect_chords` finds on `c6roll`: both notes, rooted
at the lower pitch. -/
def c6chord : Chord := ⟨[nt 60 0 1, nt 64 (1 / 100) 1], some 60⟩

instance : IsTotal (ℚ × List Note) (fun a b => a.1 ≤ b.1) :=
  ⟨fun a b => le_total a.1 b.1⟩

instance : IsTrans (ℚ × List Note) (fun a b => a.1 ≤ b.1) :=
  ⟨fun _ _ _ hab hbc => le_trans hab hbc⟩

/-! ## Helper lemmas -/

theorem mkNote_ok_iff {p : ℤ} {s e : ℚ} {v : ℤ} {t : NoteType} {n : Note} :
    mkNote p s e v t = Except.ok n ↔
      ((0 ≤ p ∧ p ≤ 127) ∧ ¬s < 0 ∧ ¬e ≤ s ∧ (0 ≤ v ∧ v ≤ 127)) ∧
        n = ⟨p, s, e, v, t⟩ := by
  unfold mkNote
  split
  · simp_all
  · split
    · simp_all
    · split
      · simp_all
      · split
        · simp_all
        · constructor
          · intro h
            refine ⟨⟨by tauto, by assumption, by assumption, by tauto⟩, ?_⟩
            cases h; rfl
          · rintro ⟨-, rfl⟩; rfl

theorem mkNote_error {p : ℤ} {s e : ℚ} {v : ℤ} {t : NoteType}
    (h : ¬(0 ≤ p ∧ p ≤ 127) ∨ ¬(0 ≤ v ∧ v ≤ 127) ∨ e ≤ s) :
    (mkNote p s e v t).isOk = false := by
  unfold mkNote
  split
  · rfl
  · split
    · rfl
    · split
      · rfl
      · split
        · rfl
        · exfalso; tauto

theorem mkPianoRoll_error {notes : List Note} {tempo : ℚ} {ts : ℤ × ℤ} {key : ℤ}
    (h : tempo ≤ 0 ∨ ts.1 ≤ 0 ∨ ts.2 ≤ 0) :
    (mkPianoRoll notes tempo ts key).isOk = false := by
  unfold mkPianoRoll
  split
  · rfl
  · split
    · rfl
    · exfalso; tauto

theorem mkRhythmQuantizer_error {cfg : QuantizationConfig}
    (h : (GRID_SIZES.find? (fun p => p.1 = cfg.grid_resolution)).isNone ∨
      ¬(0 ≤ cfg.strength ∧ cfg.strength ≤ 1) ∨
      ¬(0 ≤ cfg.swing ∧ cfg.swing ≤ 1 / 2)) :
    (mkRhythmQuantizer cfg).isOk = false := by
  unfold mkRhythmQuantizer
  split
  · rfl
  · split
    · rfl
    · split
      · rfl
      · exfalso
        rcases h with h | h | h
        · simp_all
        · tauto
        · tauto

theorem mkPianoRoll_ok {notes : List Note} {tempo : ℚ} {ts : ℤ × ℤ} {key : ℤ}
    {r : PianoRoll} (h : mkPianoRoll notes tempo ts key = Except.ok r) :
    r = ⟨sortByTime notes, tempo, ts, key⟩ := by
  unfold mkPianoRoll at h
  split at h
  · cases h
  · split at h
    · cases h
    · cases h; rfl

/-! ## Claim theorems -/

/-- C8.  Constructing a `Note` with pitch outside 0–127, velocity outside
0–127, or end ≤ start fails at construction; constructing a `PianoRoll`
with non-positive tempo or time-signature component fails at construction;
constructing a `RhythmQuantizer` from a configuration with an unknown grid
name, a strength outside `[0,1]` or a swing outside `[0,0.5]` fails before
any note data is processed; in each case no value is produced. -/
theorem construction_rejects_invalid_values :
    (∀ (p : ℤ) (s e : ℚ) (v : ℤ) (t : NoteType),
        ¬(0 ≤ p ∧ p ≤ 127) ∨ ¬(0 ≤ v ∧ v ≤ 127) ∨ e ≤ s →
          (mkNote p s e v t).isOk = false) ∧
    (∀ (notes : List Note) (tempo : ℚ) (ts : ℤ × ℤ) (key : ℤ),
        tempo ≤ 0 ∨ ts.1 ≤ 0 ∨ ts.2 ≤ 0 →
          (mkPianoRoll notes tempo ts key).isOk = false) ∧
    (∀ cfg : QuantizationConfig,
        (GRID_SIZES.find? (fun p => p.1 = cfg.grid_resolution)).isNone ∨
            ¬(0 ≤ cfg.strength ∧ cfg.strength ≤ 1) ∨
            ¬(0 ≤ cfg.swing ∧ cfg.swing ≤ 1 / 2) →
          (mkRhythmQuantizer cfg).isOk = false) :=
  ⟨fun _ _ _ _ _ h => mkNote_error h, fun _ _ _ _ h => mkPianoRoll_error h,
    fun _ h => mkRhythmQuantizer_error h⟩

/-- C8, witness: the theorem applied to a pitch of 200, a tempo of 0 and a
grid name `"9th"`. -/
theorem construction_rejects_invalid_values_witness :
    (mkNote 200 0 1 64 NoteType.unknown).isOk = false ∧
      (mkPianoRoll [] 0 (4, 4) 0).isOk = false ∧
      (mkRhythmQuantizer ⟨"9th", 1, 1 / 16, true, 0⟩).isOk = false :=
  ⟨construction_rejects_invalid_values.1 200 0 1 64 NoteType.unknown
      (Or.inl (by norm_num)),
    construction_rejects_invalid_values.2.1 [] 0 (4, 4) 0 (Or.inl le_rfl),
    construction_rejects_invalid_values.2.2 _ (Or.inl (by decide))⟩

/-- C9.  No pipeline stage writes to any pre-existing store location: for
every store `s`, configuration and input roll reference, the store each of
`quantize`, `detect_chords`, `separate_voices`, `assign_hands` and
`adjust_difficulty` leaves behind still begins with `s` unchanged — every
allocation is fresh, so the caller's input roll (its note-list, and its
tempo, time-signature and key-signature fields, which no stage assigns) is
unchanged, whether the stage succeeds or raises. -/
theorem pipeline_stages_preserve_input :
    ∀ (qcfg : QuantizationConfig) (ccfg : ChordDetectionConfig)
      (vcfg : VoiceSeparationConfig) (hcfg : HandAssignmentConfig)
      (dcfg : DifficultyConfig) (s : Store) (r : RollRef),
      (quantizeS qcfg s r).1.take s.length = s ∧
        (detectChordsS ccfg s r).1.take s.length = s ∧
        (separateVoicesS vcfg s r).1.take s.length = s ∧
        (assignHandsS hcfg s r).1.take s.length = s ∧
        (adjustDifficultyS dcfg s r).1.take s.length = s := by
  intro qcfg ccfg vcfg hcfg dcfg s r
  refine ⟨?_, ?_, ?_, ?_, ?_⟩
  · unfold quantizeS
    split
    · exact List.take_length s
    · split
      · exact List.take_length s
      · exact List.take_left s _
  · exact List.take_length s
  · unfold separateVoicesS
    split
    · split
      · exact List.take_length s
      · exact List.take_left s _
    · split
      · exact List.take_length s
      · exact List.take_left s _
  · unfold assignHandsS
    split
    · split
      · exact List.take_length s
      · exact List.take_left s _
    · split
      · exact List.take_length s
      · exact List.take_left s _
  · unfold adjustDifficultyS
    dsimp only
    split
    · exact List.take_length s
    · split
      · split
        · exact List.take_length s
        · exact List.take_left s _
      · exact List.take_length s

theorem markAs_ok_fields {n : Note} {t : NoteType} {x : Note}
    (h : markAs n t = Except.ok x) :
    x = ⟨n.pitch, n.start, n.stop, n.velocity, t⟩ :=
  (mkNote_ok_iff.mp h).2

theorem foldl_classifyStep_error (cfg : VoiceSeparationConfig)
    (cands : List Note) (bn : Option Note) (l : List Note) (e : String) :
    l.foldl (classifyStep cfg cands bn) (Except.error e) = Except.error e := by
  induction l with
  | nil => rfl
  | cons n l ih => simpa [classifyStep] using ih

theorem classify_fold_bass_prefix (cfg : VoiceSeparationConfig)
    (cands : List Note) (bn : Option Note) :
    ∀ (l : List Note) (m0 h0 b0 m h b : List Note),
      l.foldl (classifyStep cfg cands bn) (Except.ok (m0, h0, b0)) =
          Except.ok (m, h, b) →
        ∃ tb, b = b0 ++ tb := by
  intro l
  induction l with
  | nil =>
    intro m0 h0 b0 m h b hok
    simp only [List.foldl_nil, Except.ok.injEq, Prod.mk.injEq] at hok
    exact ⟨[], by simp [hok.2.2.symm]⟩
  | cons n l ih =>
    intro m0 h0 b0 m h b hok
    rw [List.foldl_cons] at hok
    simp only [classifyStep] at hok
    split at hok
    · cases hx : markAs n NoteType.melody with
      | error e => rw [hx] at hok; rw [foldl_classifyStep_error] at hok; cases hok
      | ok x => rw [hx] at hok; exact ih _ _ _ _ _ _ hok
    · split at hok
      · cases hx : markAs n NoteType.bass with
        | error e => rw [hx] at hok; rw [foldl_classifyStep_error] at hok; cases hok
        | ok x =>
          rw [hx] at hok
          obtain ⟨tb, htb⟩ := ih _ _ _ _ _ _ hok
          exact ⟨x :: tb, by simp [htb]⟩
      · cases hx : markAs n NoteType.harmony with
        | error e => rw [hx] at hok; rw [foldl_classifyStep_error] at hok; cases hok
        | ok x => rw [hx] at hok; exact ih _ _ _ _ _ _ hok

theorem classify_fold_bass_sound (cfg : VoiceSeparationConfig)
    (cands : List Note) (bn : Option Note) :
    ∀ (l : List Note) (m0 h0 b0 m h b : List Note),
      l.foldl (classifyStep cfg cands bn) (Except.ok (m0, h0, b0)) =
          Except.ok (m, h, b) →
        ∀ x ∈ b,
          x ∈ b0 ∨
            ∃ n ∈ l,
              cands.contains n = false ∧ some n = bn ∧
                n.pitch ≤ cfg.bass_pitch_threshold ∧
                markAs n NoteType.bass = Except.ok x := by
  intro l
  induction l with
  | nil =>
    intro m0 h0 b0 m h b hok x hx
    simp only [List.foldl_nil, Except.ok.injEq, Prod.mk.injEq] at hok
    exact Or.inl (hok.2.2 ▸ hx)
  | cons n l ih =>
    intro m0 h0 b0 m h b hok x hx
    rw [List.foldl_cons] at hok
    simp only [classifyStep] at hok
    split at hok
    · rename_i hcand
      cases hm : markAs n NoteType.melody with
      | error e => rw [hm] at hok; rw [foldl_classifyStep_error] at hok; cases hok
      | ok y =>
        rw [hm] at hok
        rcases ih _ _ _ _ _ _ hok x hx with h1 | ⟨n', hn', rest⟩
        · exact Or.inl h1
        · exact Or.inr ⟨n', List.mem_cons_of_mem _ hn', rest⟩
    · rename_i hcand
      split at hok
      · rename_i hbass
        cases hm : markAs n NoteType.bass with
        | error e => rw [hm] at hok; rw [foldl_classifyStep_error] at hok; cases hok
        | ok y =>
          rw [hm] at hok
          rcases ih _ _ _ _ _ _ hok x hx with h1 | ⟨n', hn', rest⟩
          · rcases List.mem_append.mp h1 with h2 | h2
            · exact Or.inl h2
            · refine Or.inr ⟨n, List.mem_cons_self n l, ?_, hbass.1, hbass.2, ?_⟩
              · exact Bool.not_eq_true _ ▸ (by simpa using hcand)
              · rw [List.mem_singleton] at h2; rw [← h2] at hm; exact hm
          · exact Or.inr ⟨n', List.mem_cons_of_mem _ hn', rest⟩
      · cases hm : markAs n NoteType.harmony with
        | error e => rw [hm] at hok; rw [foldl_classifyStep_error] at hok; cases hok
        | ok y =>
          rw [hm] at hok
          rcases ih _ _ _ _ _ _ hok x hx with h1 | ⟨n', hn', rest⟩
          · exact Or.inl h1
          · exact Or.inr ⟨n', List.mem_cons_of_mem _ hn', rest⟩

theorem classify_fold_bass_complete (cfg : VoiceSeparationConfig)
    (cands : List Note) (bn : Option Note) :
    ∀ (l : List Note) (m0 h0 b0 m h b : List Note) (n : Note),
      l.foldl (classifyStep cfg cands bn) (Except.ok (m0, h0, b0)) =
          Except.ok (m, h, b) →
        n ∈ l → cands.contains n = false → some n = bn →
        n.pitch ≤ cfg.bass_pitch_threshold → b ≠ [] := by
  intro l
  induction l with
  | nil => intro _ _ _ _ _ _ _ _ hn; cases hn
  | cons a l ih =>
    intro m0 h0 b0 m h b n hok hn hcand hbn hle
    rw [List.foldl_cons] at hok
    simp only [classifyStep] at hok
    rcases List.mem_cons.mp hn with rfl | hmem
    · rw [if_neg (by rw [hcand]; exact Bool.false_ne_true)] at hok
      rw [if_pos ⟨hbn, hle⟩] at hok
      cases hm : markAs n NoteType.bass with
      | error e => rw [hm] at hok; rw [foldl_classifyStep_error] at hok; cases hok
      | ok y =>
        rw [hm] at hok
        obtain ⟨tb, htb⟩ := classify_fold_bass_prefix cfg cands bn _ _ _ _ _ _ _ hok
        rw [htb]
        simp
    · split at hok
      · cases hm : markAs a NoteType.melody with
        | error e => rw [hm] at hok; rw [foldl_classifyStep_error] at hok; cases hok
        | ok y => rw [hm] at hok; exact ih _ _ _ _ _ _ _ hok hmem hcand hbn hle
      · split at hok
        · cases hm : markAs a NoteType.bass with
          | error e => rw [hm] at hok; rw [foldl_classifyStep_error] at hok; cases hok
          | ok y =>
            rw [hm] at hok
            intro hbnil
            obtain ⟨tb, htb⟩ :=
              classify_fold_bass_prefix cfg cands bn _ _ _ _ _ _ _ hok
            rw [htb] at hbnil
            simp at hbnil
        · cases hm : markAs a NoteType.harmony with
          | error e => rw [hm] at hok; rw [foldl_classifyStep_error] at hok; cases hok
          | ok y => rw [hm] at hok; exact ih _ _ _ _ _ _ _ hok hmem hcand hbn hle

theorem classifyWindow_bass_le (cfg : VoiceSeparationConfig) (w : List Note)
    (m h b : List Note) (hok : classifyWindow cfg w = Except.ok (m, h, b)) :
    ∀ x ∈ b, x.pitch ≤ cfg.bass_pitch_threshold := by
  match w with
  | [] =>
    simp only [classifyWindow, Except.ok.injEq, Prod.mk.injEq] at hok
    intro x hx
    rw [← hok.2.2] at hx
    cases hx
  | [n] =>
    simp only [classifyWindow] at hok
    split at hok
    · split at hok
      · cases hok
      · simp only [Except.ok.injEq, Prod.mk.injEq] at hok
        intro x hx; rw [← hok.2.2] at hx; cases hx
    · split at hok
      · rename_i hnm hle
        split at hok
        · cases hok
        · rename_i x' hx'
          simp only [Except.ok.injEq, Prod.mk.injEq] at hok
          intro x hx
          rw [← hok.2.2] at hx
          rw [List.mem_singleton] at hx
          subst hx
          rw [markAs_ok_fields hx']
          exact hle
      · split at hok
        · cases hok
        · simp only [Except.ok.injEq, Prod.mk.injEq] at hok
          intro x hx; rw [← hok.2.2] at hx; cases hx
  | n1 :: n2 :: rest =>
    simp only [classifyWindow] at hok
    split at hok
    · cases hok
    · rename_i ms hs bs heq
      split at hok
      · rename_i b0h hhead
        split at hok
        · simp only [Except.ok.injEq, Prod.mk.injEq] at hok
          intro x hx; rw [← hok.2.2] at hx; cases hx
        · simp only [Except.ok.injEq, Prod.mk.injEq] at hok
          intro x hx
          rw [← hok.2.2] at hx
          rcases classify_fold_bass_sound cfg _ _ _ _ _ _ _ _ _ heq x hx with
            h1 | ⟨n', _, _, _, hle, hmk⟩
          · cases h1
          · rw [markAs_ok_fields hmk]; exact hle
      · simp only [Except.ok.injEq, Prod.mk.injEq] at hok
        intro x hx
        rw [← hok.2.2] at hx
        rcases classify_fold_bass_sound cfg _ _ _ _ _ _ _ _ _ heq x hx with
          h1 | ⟨n', _, _, _, hle, hmk⟩
        · cases h1
        · rw [markAs_ok_fields hmk]; exact hle

theorem foldl_sepStep_error (cfg : VoiceSeparationConfig)
    (ws : List (List Note)) (e : String) :
    ws.foldl (sepStep cfg) (Except.error e) = Except.error e := by
  induction ws with
  | nil => rfl
  | cons w ws ih => simpa [sepStep] using ih

theorem sep_fold_bass_le (cfg : VoiceSeparationConfig) :
    ∀ (ws : List (List Note)) (ms0 hs0 bs0 ms hs bs : List Note),
      ws.foldl (sepStep cfg) (Except.ok (ms0, hs0, bs0)) =
          Except.ok (ms, hs, bs) →
        (∀ x ∈ bs0, x.pitch ≤ cfg.bass_pitch_threshold) →
        ∀ x ∈ bs, x.pitch ≤ cfg.bass_pitch_threshold := by
  intro ws
  induction ws with
  | nil =>
    intro ms0 hs0 bs0 ms hs bs hok h0
    simp only [List.foldl_nil, Except.ok.injEq, Prod.mk.injEq] at hok
    rw [← hok.2.2]
    exact h0
  | cons w ws ih =>
    intro ms0 hs0 bs0 ms hs bs hok h0
    rw [List.foldl_cons] at hok
    simp only [sepStep] at hok
    split at hok
    · rw [foldl_sepStep_error] at hok; cases hok
    · rename_i m1 h1 b1 hw
      refine ih _ _ _ _ _ _ hok ?_
      intro x hx
      rcases List.mem_append.mp hx with hx | hx
      · exact h0 x hx
      · exact classifyWindow_bass_le cfg w _ _ _ hw x hx

/-- C10.  Every note the voice separator places in the bass roll has pitch
at most `bass_pitch_threshold`: the code admits a bass note only when its
pitch is already at or below the threshold, so a bass note lying more than
12 semitones above it can never occur. -/
theorem separate_voices_bass_below_threshold (cfg : VoiceSeparationConfig)
    (roll : PianoRoll) (mr hr br : PianoRoll)
    (hok : separateVoices cfg roll = Except.ok (mr, hr, br)) :
    ∀ n ∈ br.notes, n.pitch ≤ cfg.bass_pitch_threshold := by
  unfold separateVoices at hok
  split at hok
  · split at hok
    · cases hok
    · rename_i empty hmk
      simp only [Except.ok.injEq, Prod.mk.injEq] at hok
      rw [mkPianoRoll_ok hmk] at hok
      rw [← hok.2.2]
      intro n hn
      cases hn
  · dsimp only at hok
    split at hok
    · cases hok
    · rename_i ms hs bs hfold
      split at hok
      · cases hok
      · rename_i melody_roll hm
        split at hok
        · cases hok
        · rename_i harmony_roll hh
          split at hok
          · cases hok
          · rename_i bass_roll hb
            simp only [Except.ok.injEq, Prod.mk.injEq] at hok
            rw [← hok.2.2]
            rw [mkPianoRoll_ok hb]
            intro n hn
            have hn' : n ∈ bs := by
              simpa [sortByTime] using hn
            exact sep_fold_bass_le cfg _ _ _ _ _ _ _ hfold
              (fun x hx => absurd hx (List.not_mem_nil x)) n hn'

/-- C2 (amended).  In a multi-note window, the lowest-pitch note becomes
the bass voice exactly when it is not taken as a melody candidate and its
pitch is at most `bass_pitch_threshold` — not `threshold + 12`; the
demote-by-12 branch never fires, because an admitted bass note already
satisfies the stronger bound. -/
theorem classify_window_bass_iff (cfg : VoiceSeparationConfig) (w : List Note)
    (m h b : List Note) (bn : Note) (hlen : 2 ≤ w.length)
    (hbn : bassNoteOf w = some bn)
    (hok : classifyWindow cfg w = Except.ok (m, h, b)) :
    b ≠ [] ↔
      bn ∉ melodyCandidates cfg w ∧ bn.pitch ≤ cfg.bass_pitch_threshold := by
  match w with
  | [] => simp at hlen
  | [n] => simp at hlen
  | n1 :: n2 :: rest =>
    have hbnmem : bn ∈ n1 :: n2 :: rest := by
      have := List.mem_of_mem_getLast? hbn
      simpa using this
    simp only [classifyWindow] at hok
    split at hok
    · cases hok
    · rename_i ms hs bs heq
      have hsound := classify_fold_bass_sound cfg (melodyCandidates cfg (n1 :: n2 :: rest))
        (bassNoteOf (n1 :: n2 :: rest)) _ _ _ _ _ _ _ heq
      split at hok
      · rename_i b0h hhead
        split at hok
        · rename_i hhigh
          exfalso
          have hb0mem : b0h ∈ bs :=
            List.mem_of_mem_head? (hhead ▸ Option.mem_def.mpr rfl)
          rcases hsound b0h hb0mem with h1 | ⟨n', _, _, _, hle, hmk⟩
          · cases h1
          · rw [markAs_ok_fields hmk] at hhigh
            dsimp at hhigh
            linarith
        · simp only [Except.ok.injEq, Prod.mk.injEq] at hok
          obtain ⟨-, -, rfl⟩ := hok
          constructor
          · intro hbne
            obtain ⟨x, hx⟩ := List.exists_mem_of_ne_nil _ hbne
            rcases hsound x hx with h1 | ⟨n', hn', hcand, hbass, hle, -⟩
            · cases h1
            · rw [hbn] at hbass
              obtain rfl : n' = bn := by
                simpa using hbass
              refine ⟨?_, hle⟩
              intro hmem
              have h2 : (melodyCandidates cfg (n1 :: n2 :: rest)).contains n' = true :=
                List.elem_eq_true_of_mem hmem
              rw [h2] at hcand
              cases hcand
          · rintro ⟨hnot, hle⟩
            refine classify_fold_bass_complete cfg _ _ _ _ _ _ _ _ _ _
              heq hbnmem ?_ hbn.symm hle
            cases hc : (melodyCandidates cfg (n1 :: n2 :: rest)).contains bn
            · rfl
            · exact absurd (List.mem_of_elem_eq_true hc) hnot
      · rename_i hhead
        rw [List.head?_eq_none_iff] at hhead
        simp only [Except.ok.injEq, Prod.mk.injEq] at hok
        obtain ⟨-, -, rfl⟩ := hok
        subst hhead
        constructor
        · intro hbne; exact absurd rfl hbne
        · rintro ⟨hnot, hle⟩
          exfalso
          refine classify_fold_bass_complete cfg _ _ _ _ _ _ _ _ _ _
            heq hbnmem ?_ hbn.symm hle rfl
          cases hc : (melodyCandidates cfg (n1 :: n2 :: rest)).contains bn
          · rfl
          · exact absurd (List.mem_of_elem_eq_true hc) hnot

theorem rotatedNormalized_self :
    ∀ pt ∈ CHORD_TYPES, ∀ rot ∈ List.range' 1 (pt.2.length - 1),
      rotatedNormalized pt.2 rot = pt.2 := by decide

/-- C3.  The inversion search of `identify_chord_type` is dead code: the
rotated patterns are normalised (mod 12, sorted) straight back to the
original patterns, so a genuine inversion — here E4–G4–B4–C5, whose
interval set `[0, 3, 7, 8]` is a cyclic rotation of major7's
`[0, 4, 7, 11]` — is reported as `"unknown"`, and in general the function
only ever returns `None`, a bare pattern name, or `"unknown"`, never a
`"<type> (inversion)"` string. -/
theorem identify_chord_type_no_inversion :
    identifyChordType c3chord = some ("unknown") ∧
      ∀ c : Chord, identifyChordType c ∈ allowedChordResults := by
  constructor
  · decide
  · intro c
    unfold identifyChordType
    dsimp only
    split
    · simp [allowedChordResults]
    · cases hfind :
        CHORD_TYPES.find?
          (fun pt =>
            pt.2 =
              sortedDedup
                ((c.pitches.map
                      (fun p =>
                        p -
                          match c.pitches with
                          | [] => 0
                          | p :: ps => ps.foldl min p)).map
                  (· % 12))) with
      | some pt =>
        dsimp only
        have hmem := List.mem_of_find?_eq_some hfind
        simp only [allowedChordResults, List.mem_cons]
        right; right
        exact List.mem_map_of_mem (fun pt => some pt.1) hmem
      | none =>
        have hall := List.find?_eq_none.mp hfind
        have hrot :
            CHORD_TYPES.findSome?
                (fun pt =>
                  (List.range' 1 (pt.2.length - 1)).findSome?
                    (fun rotation =>
                      if
                          sortedDedup
                              ((c.pitches.map
                                    (fun p =>
                                      p -
                                        match c.pitches with
                                        | [] => 0
                                        | p :: ps => ps.foldl min p)).map
                                (· % 12)) =
                            rotatedNormalized pt.2 rotation then
                        some (pt.1 ++ " (inversion)")
                      else none)) =
              none := by
          rw [List.findSome?_eq_none_iff]
          intro pt hpt
          rw [List.findSome?_eq_none_iff]
          intro rot hrotmem
          rw [if_neg]
          intro heq
          rw [rotatedNormalized_self pt hpt rot hrotmem] at heq
          exact absurd (by simpa using heq.symm) (by simpa using hall pt hpt)
        rw [hrot]
        simp [allowedChordResults]

theorem mapExcept_ok_forall₂ {f : α → Except String β} :
    ∀ {l : List α} {l' : List β},
      mapExcept f l = Except.ok l' →
        List.Forall₂ (fun a b => f a = Except.ok b) l l' := by
  intro l
  induction l with
  | nil =>
    intro l' h
    simp only [mapExcept, Except.ok.injEq] at h
    rw [← h]
    exact List.Forall₂.nil
  | cons a l ih =>
    intro l' h
    unfold mapExcept at h
    split at h
    · cases h
    · rename_i b hb
      split at h
      · cases h
      · rename_i bs hbs
        simp only [Except.ok.injEq] at h
        rw [← h]
        exact List.Forall₂.cons hb (ih hbs)

theorem forall₂_exists_of_mem_right {R : α → β → Prop} :
    ∀ {l : List α} {l' : List β},
      List.Forall₂ R l l' → ∀ b ∈ l', ∃ a ∈ l, R a b := by
  intro l l' h
  induction h with
  | nil => intro b hb; cases hb
  | cons hab htail ih =>
    intro b hb
    rcases List.mem_cons.mp hb with rfl | hb
    · exact ⟨_, List.mem_cons_self _ _, hab⟩
    · obtain ⟨a, ha, hr⟩ := ih b hb
      exact ⟨a, List.mem_cons_of_mem _ ha, hr⟩

theorem forall₂_map_eq {R : α → β → Prop} {f : α → γ} {g : β → γ} :
    ∀ {l : List α} {l' : List β},
      List.Forall₂ R l l' → (∀ a b, R a b → g b = f a) →
        l'.map g = l.map f := by
  intro l l' h hfg
  induction h with
  | nil => rfl
  | cons hab htail ih => simp [ih, hfg _ _ hab]

theorem forall₂_imp_mem {R S : α → β → Prop} :
    ∀ {l : List α} {l' : List β},
      List.Forall₂ R l l' → (∀ a ∈ l, ∀ b, R a b → S a b) →
        List.Forall₂ S l l' := by
  intro l l' h hRS
  induction h with
  | nil => exact List.Forall₂.nil
  | cons hab htail ih =>
    exact List.Forall₂.cons (hRS _ (List.mem_cons_self _ _) _ hab)
      (ih fun a ha b hr => hRS a (List.mem_cons_of_mem _ ha) b hr)

theorem keyLe_congr {a b a' b' : Note} (ha : noteKey a' = noteKey a)
    (hb : noteKey b' = noteKey b) (h : keyLe a b) : keyLe a' b' := by
  unfold noteKey at ha hb
  rw [Prod.mk.injEq] at ha hb
  unfold keyLe at *
  rw [ha.1, ha.2, hb.1, hb.2]
  exact h

theorem sorted_transport {l l' : List Note}
    (h : List.Forall₂ (fun a b => noteKey b = noteKey a) l l')
    (hs : List.Sorted keyLe l) : List.Sorted keyLe l' := by
  induction h with
  | nil => exact List.sorted_nil
  | cons hab htail ih =>
    rw [List.sorted_cons] at hs ⊢
    refine ⟨?_, ih hs.2⟩
    intro y hy
    obtain ⟨x, hx, hxy⟩ := forall₂_exists_of_mem_right htail y hy
    exact keyLe_congr hab hxy (hs.1 x hx)

theorem quantizeNote_ok_fields {cfg : QuantizationConfig} {g bd : ℚ}
    {a b : Note} (h : quantizeNote cfg g bd a = Except.ok b) :
    b.pitch = a.pitch ∧ b.start = quantizeTime cfg g a.start := by
  unfold quantizeNote at h
  rw [mkNote_ok_iff.mp h |>.2]
  exact ⟨rfl, rfl⟩

theorem pyRound_intCast (n : ℤ) : pyRound (n : ℚ) = n := by
  unfold pyRound
  rw [Int.floor_intCast]
  norm_num

theorem pyRound_int_add (n : ℤ) (s : ℚ) (h0 : 0 ≤ s) (h1 : s < 1 / 2) :
    pyRound ((n : ℚ) + s) = n := by
  unfold pyRound
  have hf : ⌊(n : ℚ) + s⌋ = n := by
    rw [add_comm, Int.floor_add_int]
    rw [Int.floor_eq_zero_iff.mpr ⟨h0, by linarith⟩]
    exact zero_add n
  rw [hf]
  rw [if_pos (by linarith)]

theorem quantizeTime_zero (cfg : QuantizationConfig) (g : ℚ) :
    quantizeTime cfg g 0 = 0 := by
  unfold quantizeTime applySwing pyMod
  have h0 : pyRound (0 / g) = 0 := by
    rw [zero_div]
    exact_mod_cast pyRound_intCast 0
  rw [h0]
  norm_num

theorem quantizeTime_strength_one_eq (cfg : QuantizationConfig) (g t : ℚ)
    (hs : cfg.strength = 1) :
    quantizeTime cfg g t =
      max 0
        (if 0 < cfg.swing then
          applySwing cfg.swing g ((pyRound (t / g) : ℚ) * g)
        else (pyRound (t / g) : ℚ) * g) := by
  unfold quantizeTime
  rw [hs]
  ring_nf

theorem pyMod_mul_left_even (k : ℤ) (g : ℚ) (hg : 0 < g) :
    pyMod (((2 * k : ℤ) : ℚ) * g) (g * 2) = 0 := by
  unfold pyMod
  have hd : ((2 * k : ℤ) : ℚ) * g / (g * 2) = (k : ℚ) := by
    field_simp
    ring
  rw [hd, Int.floor_intCast]
  push_cast
  ring

theorem pyMod_mul_left_odd (k : ℤ) (g : ℚ) (hg : 0 < g) :
    pyMod (((2 * k + 1 : ℤ) : ℚ) * g) (g * 2) = g := by
  unfold pyMod
  have hd : ((2 * k + 1 : ℤ) : ℚ) * g / (g * 2) = (k : ℚ) + 1 / 2 := by
    field_simp
    ring
  have hf : ⌊(k : ℚ) + 1 / 2⌋ = k := by
    rw [add_comm, Int.floor_add_int]
    norm_num
  rw [hd, hf]
  push_cast
  ring

theorem applySwing_even (swing g : ℚ) (hg : 0 < g) (k : ℤ) :
    applySwing swing g (((2 * k : ℤ) : ℚ) * g) = ((2 * k : ℤ) : ℚ) * g := by
  unfold applySwing
  dsimp only
  rw [pyMod_mul_left_even k g hg, zero_div]
  rw [if_neg (by norm_num)]

theorem applySwing_odd (swing g : ℚ) (hg : 0 < g) (k : ℤ) :
    applySwing swing g (((2 * k + 1 : ℤ) : ℚ) * g) =
      ((2 * k + 1 : ℤ) : ℚ) * g + swing * g := by
  unfold applySwing
  dsimp only
  rw [pyMod_mul_left_odd k g hg]
  have hpos : g / (g * 2) = 1 / 2 := by
    rw [div_eq_iff (by positivity)]
    ring
  rw [hpos]
  rw [if_pos (by norm_num)]

theorem quantizeTime_fixpoint (cfg : QuantizationConfig) (g t : ℚ)
    (hs : cfg.strength = 1) (hsw0 : 0 ≤ cfg.swing) (hsw : cfg.swing < 1 / 2)
    (hg : 0 < g) :
    quantizeTime cfg g (quantizeTime cfg g t) = quantizeTime cfg g t := by
  by_cases hw : 0 < cfg.swing
  · rw [quantizeTime_strength_one_eq cfg g t hs, if_pos hw]
    rcases Int.even_or_odd (pyRound (t / g)) with ⟨k, hk⟩ | ⟨k, hk⟩
    · rw [hk, show k + k = 2 * k by ring]
      rw [applySwing_even cfg.swing g hg k]
      by_cases hnn : 0 ≤ ((2 * k : ℤ) : ℚ) * g
      · rw [max_eq_right hnn]
        rw [quantizeTime_strength_one_eq cfg g _ hs, if_pos hw]
        rw [mul_div_cancel_right₀ _ hg.ne', pyRound_intCast]
        rw [applySwing_even cfg.swing g hg k]
        rw [max_eq_right hnn]
      · push_neg at hnn
        rw [max_eq_left hnn.le, quantizeTime_zero]
    · rw [hk]
      rw [applySwing_odd cfg.swing g hg k]
      by_cases hnn : 0 ≤ ((2 * k + 1 : ℤ) : ℚ) * g + cfg.swing * g
      · rw [max_eq_right hnn]
        rw [quantizeTime_strength_one_eq cfg g _ hs, if_pos hw]
        have hvd :
            (((2 * k + 1 : ℤ) : ℚ) * g + cfg.swing * g) / g =
              ((2 * k + 1 : ℤ) : ℚ) + cfg.swing := by
          field_simp
          ring
        rw [hvd]
        rw [pyRound_int_add _ _ hsw0 hsw]
        rw [applySwing_odd cfg.swing g hg k]
        rw [max_eq_right hnn]
      · push_neg at hnn
        rw [max_eq_left hnn.le, quantizeTime_zero]
  · rw [quantizeTime_strength_one_eq cfg g t hs, if_neg hw]
    by_cases hnn : 0 ≤ ((pyRound (t / g) : ℤ) : ℚ) * g
    · rw [max_eq_right hnn]
      rw [quantizeTime_strength_one_eq cfg g _ hs, if_neg hw]
      rw [mul_div_cancel_right₀ _ hg.ne', pyRound_intCast]
      rw [max_eq_right hnn]
    · push_neg at hnn
      rw [max_eq_left hnn.le, quantizeTime_zero]

theorem gridSizeOf_pos {cfg : QuantizationConfig} (h : cfg.ValidCfg) :
    0 < gridSizeOf cfg.grid_resolution := by
  obtain ⟨p, hp⟩ := Option.isSome_iff_exists.mp h.1
  unfold gridSizeOf
  rw [hp]
  have hmem := List.mem_of_find?_eq_some hp
  simp only [GRID_SIZES, List.mem_cons, List.not_mem_nil, or_false] at hmem
  rcases hmem with rfl | rfl | rfl | rfl | rfl | rfl | rfl <;> norm_num

theorem noteKey_start_eq {a b : Note} (h : noteKey b = noteKey a) :
    b.start = a.start := congrArg Prod.fst h

theorem quantizeTime_strength_zero (cfg : QuantizationConfig) (g t : ℚ)
    (hs : cfg.strength = 0) (ht : 0 ≤ t) : quantizeTime cfg g t = t := by
  unfold quantizeTime
  rw [hs]
  ring_nf
  exact max_eq_right ht

theorem quantizeTime_strength_one_multiple (cfg : QuantizationConfig)
    (g t : ℚ) (hs : cfg.strength = 1) (hw : cfg.swing = 0) :
    ∃ k : ℤ, quantizeTime cfg g t = (k : ℚ) * g := by
  rw [quantizeTime_strength_one_eq cfg g t hs,
    if_neg (by rw [hw]; norm_num)]
  by_cases hnn : 0 ≤ ((pyRound (t / g) : ℤ) : ℚ) * g
  · exact ⟨pyRound (t / g), max_eq_right hnn⟩
  · push_neg at hnn
    exact ⟨0, by rw [max_eq_left hnn.le]; norm_num⟩

/-- C4.  For every note of a successfully quantized roll: with
`strength = 0` every note's start time is exactly unchanged (same list, in
order), and with `strength = 1` and `swing = 0` every output start is
exactly an integer multiple of the grid duration
`60 / tempo × grid fraction` (exact rational arithmetic in place of the
float tolerance). -/
theorem quantize_strength_zero_and_one (cfg : QuantizationConfig)
    (roll out : PianoRoll) (hok : quantize cfg roll = Except.ok out) :
    (cfg.strength = 0 → roll.ValidRoll →
        out.notes.map Note.start = roll.notes.map Note.start) ∧
      (cfg.strength = 1 → cfg.swing = 0 →
        ∀ n ∈ out.notes, ∃ k : ℤ,
          n.start =
            (k : ℚ) * (60 / roll.tempo * gridSizeOf cfg.grid_resolution)) := by
  unfold quantize at hok
  split at hok
  · rename_i hnil
    obtain rfl : roll = out := Except.ok.inj hok
    constructor
    · intro _ _; rfl
    · intro _ _ n hn
      rw [hnil] at hn
      cases hn
  · rename_i hnil
    dsimp only at hok
    split at hok
    · cases hok
    · rename_i qnotes heq
      have hout := mkPianoRoll_ok hok
      have hf := mapExcept_ok_forall₂ heq
      constructor
      · intro hs0 hvalid
        have hkeys :
            List.Forall₂ (fun a b => noteKey b = noteKey a) roll.notes qnotes := by
          refine forall₂_imp_mem hf ?_
          intro a ha b hab
          obtain ⟨hp, hst⟩ := quantizeNote_ok_fields hab
          have ha0 : 0 ≤ a.start := (hvalid.2.2.2.1 a ha).2.2.1
          unfold noteKey
          rw [hp, hst, quantizeTime_strength_zero cfg _ _ hs0 ha0]
        have hsorted : List.Sorted keyLe qnotes :=
          sorted_transport hkeys hvalid.2.2.2.2
        rw [hout]
        show (sortByTime qnotes).map Note.start = roll.notes.map Note.start
        rw [show sortByTime qnotes = qnotes from
          List.Sorted.insertionSort_eq hsorted]
        exact forall₂_map_eq hkeys fun a b hab => noteKey_start_eq hab
      · intro hs1 hw0 n hn
        rw [hout] at hn
        have hn' : n ∈ qnotes := by simpa [sortByTime] using hn
        obtain ⟨a, ha, hab⟩ := forall₂_exists_of_mem_right hf n hn'
        obtain ⟨-, hst⟩ := quantizeNote_ok_fields hab
        obtain ⟨k, hk⟩ :=
          quantizeTime_strength_one_multiple cfg _ a.start hs1 hw0
        exact ⟨k, by rw [hst, hk]⟩

/-- C5 (amended).  Quantization is idempotent on onsets for `strength = 1`
and `swing < 0.5` (exactly, in exact arithmetic): a second pass reproduces
the first pass's start times.  At `swing = 0.5` this fails (see the
counterexample): a swung onset sits exactly half way between grid lines
and the banker's rounding of the second pass carries it to the next line. -/
theorem quantize_idempotent_onsets (cfg : QuantizationConfig)
    (roll r1 r2 : PianoRoll) (hcfg : cfg.ValidCfg) (hs : cfg.strength = 1)
    (hsw : cfg.swing < 1 / 2) (ht : 0 < roll.tempo)
    (h1 : quantize cfg roll = Except.ok r1)
    (h2 : quantize cfg r1 = Except.ok r2) :
    r2.notes.map Note.start = r1.notes.map Note.start := by
  have hg : 0 < 60 / roll.tempo * gridSizeOf cfg.grid_resolution :=
    mul_pos (div_pos (by norm_num) ht) (gridSizeOf_pos hcfg)
  unfold quantize at h1
  split at h1
  · rename_i hnil
    obtain rfl : roll = r1 := Except.ok.inj h1
    unfold quantize at h2
    rw [if_pos hnil] at h2
    obtain rfl : roll = r2 := Except.ok.inj h2
    rfl
  · rename_i hnil
    dsimp only at h1
    split at h1
    · cases h1
    · rename_i qnotes heq
      have hr1 := mkPianoRoll_ok h1
      have hf1 := mapExcept_ok_forall₂ heq
      have htempo : r1.tempo = roll.tempo := by rw [hr1]
      have hfix : ∀ n ∈ r1.notes,
          quantizeTime cfg (60 / roll.tempo * gridSizeOf cfg.grid_resolution)
              n.start =
            n.start := by
        intro n hn
        rw [hr1] at hn
        have hn' : n ∈ qnotes := by simpa [sortByTime] using hn
        obtain ⟨a, ha, hab⟩ := forall₂_exists_of_mem_right hf1 n hn'
        obtain ⟨-, hst⟩ := quantizeNote_ok_fields hab
        rw [hst]
        exact quantizeTime_fixpoint cfg _ _ hs hcfg.2.2.2.1 hsw hg
      unfold quantize at h2
      split at h2
      · obtain rfl : r1 = r2 := Except.ok.inj h2
        rfl
      · rename_i hnil2
        dsimp only at h2
        split at h2
        · cases h2
        · rename_i q2 heq2
          have hr2 := mkPianoRoll_ok h2
          rw [htempo] at heq2
          have hf2 := mapExcept_ok_forall₂ heq2
          have hkeys :
              List.Forall₂ (fun a b => noteKey b = noteKey a) r1.notes q2 := by
            refine forall₂_imp_mem hf2 ?_
            intro a ha b hab
            obtain ⟨hp, hst⟩ := quantizeNote_ok_fields hab
            unfold noteKey
            rw [hp, hst, hfix a ha]
          have hsorted1 : List.Sorted keyLe r1.notes := by
            rw [hr1]
            exact List.sorted_insertionSort keyLe qnotes
          have hsorted2 := sorted_transport hkeys hsorted1
          rw [hr2]
          show (sortByTime q2).map Note.start = r1.notes.map Note.start
          rw [show sortByTime q2 = q2 from
            List.Sorted.insertionSort_eq hsorted2]
          exact forall₂_map_eq hkeys fun a b hab => noteKey_start_eq hab

theorem gridSizeOf_16th : gridSizeOf ("16th") = 1 / 16 := rfl

/-- C5, counterexample.  With a 16th-note grid at 120 BPM, `strength = 1`
and the maximal configured `swing = 0.5` (accepted by validation), a note
starting on the odd grid line 1/32 s is swung to 3/64 s by the first pass,
and the second pass moves it on to 1/16 s — half a grid unit away, far
beyond float tolerance.  Quantizing twice differs from quantizing once. -/
theorem quantize_swing_half_not_idempotent :
    quantize c5cfg c5roll = Except.ok c5once ∧
      quantize c5cfg c5once = Except.ok c5twice ∧
      c5once.notes.map Note.start = [3 / 64] ∧
      c5twice.notes.map Note.start = [1 / 16] ∧
      ((3 : ℚ) / 64 = 1 / 16) = False := by
  refine ⟨?_, ?_, rfl, rfl, ?_⟩
  · norm_num [quantize, mapExcept, quantizeNote, quantizeTime, applySwing,
      pyRound, pyMod, mkNote, mkPianoRoll, sortByTime, gridSizeOf_16th,
      c5cfg, c5roll, c5once, nt, Note.duration, List.insertionSort,
      List.orderedInsert]
  · norm_num [quantize, mapExcept, quantizeNote, quantizeTime, applySwing,
      pyRound, pyMod, mkNote, mkPianoRoll, sortByTime, gridSizeOf_16th,
      c5cfg, c5once, c5twice, nt, Note.duration, List.insertionSort,
      List.orderedInsert]
  · norm_num

/-- C4/C5's witness roll: one off-grid note (start 3/128 s) at 120 BPM. -/
def c4roll : PianoRoll := ⟨[nt 60 (3 / 128) 1], 120, (4, 4), 0⟩

/-- `c4roll` after quantization with the default (16th-grid, strength-1,
no-swing) configuration: the onset snaps to the grid line 1/32 s. -/
def c4out : PianoRoll := ⟨[nt 60 (1 / 32) 1], 120, (4, 4), 0⟩

theorem defaultQuantConfig_valid : defaultQuantConfig.ValidCfg := by
  refine ⟨by decide, ?_, ?_, ?_, ?_⟩ <;> norm_num [defaultQuantConfig]

theorem c4_eval : quantize defaultQuantConfig c4roll = Except.ok c4out := by
  norm_num [quantize, mapExcept, quantizeNote, quantizeTime, applySwing,
    pyRound, pyMod, mkNote, mkPianoRoll, sortByTime, gridSizeOf_16th,
    defaultQuantConfig, c4roll, c4out, nt, Note.duration, List.insertionSort,
    List.orderedInsert]

theorem c4_eval2 : quantize defaultQuantConfig c4out = Except.ok c4out := by
  norm_num [quantize, mapExcept, quantizeNote, quantizeTime, applySwing,
    pyRound, pyMod, mkNote, mkPianoRoll, sortByTime, gridSizeOf_16th,
    defaultQuantConfig, c4out, nt, Note.duration, List.insertionSort,
    List.orderedInsert]

/-- C4, witness: the theorem applied to the default configuration and
`c4roll`. -/
theorem quantize_strength_zero_and_one_witness :
    (defaultQuantConfig.strength = 0 → c4roll.ValidRoll →
        c4out.notes.map Note.start = c4roll.notes.map Note.start) ∧
      (defaultQuantConfig.strength = 1 → defaultQuantConfig.swing = 0 →
        ∀ n ∈ c4out.notes, ∃ k : ℤ,
          n.start =
            (k : ℚ) *
              (60 / c4roll.tempo *
                gridSizeOf defaultQuantConfig.grid_resolution)) :=
  quantize_strength_zero_and_one defaultQuantConfig c4roll c4out c4_eval

/-- C5, witness: the amended idempotence theorem applied to the default
configuration and `c4roll`. -/
theorem quantize_idempotent_onsets_witness :
    c4out.notes.map Note.start = c4out.notes.map Note.start :=
  quantize_idempotent_onsets defaultQuantConfig c4roll c4out c4out
    defaultQuantConfig_valid rfl (by norm_num [defaultQuantConfig])
    (by norm_num [c4roll]) c4_eval c4_eval2

/-- Melody roll the separator produces on `c2roll`. -/
def c2melody : PianoRoll :=
  ⟨[⟨70, 0, 1, 64, NoteType.melody⟩, ⟨80, 0, 1, 64, NoteType.melody⟩],
    120, (4, 4), 0⟩

/-- Harmony roll the separator produces on `c2roll`: it holds the lowest
note (pitch 60), which the claim says should be bass. -/
def c2harmony : PianoRoll := ⟨[⟨60, 0, 1, 64, NoteType.harmony⟩], 120, (4, 4), 0⟩

/-- Bass roll the separator produces on `c2roll`: empty. -/
def c2bass : PianoRoll := ⟨[], 120, (4, 4), 0⟩

/-- C2, counterexample.  On a single window holding pitches 60, 70, 80
(default thresholds: bass 55), the lowest pitch 60 satisfies
`60 ≤ bass_pitch_threshold + 12 = 67`, so the claim says it is classified
as bass; the code instead files it under harmony and returns an empty bass
roll, because bass admission requires `pitch ≤ bass_pitch_threshold`. -/
theorem separate_voices_lowest_not_bass :
    separateVoices defaultVoiceConfig c2roll =
        Except.ok (c2melody, c2harmony, c2bass) ∧
      c2bass.notes = [] ∧
      (60 : ℤ) ≤ defaultVoiceConfig.bass_pitch_threshold + 12 ∧
      2 ≤ c2roll.notes.length := by
  refine ⟨?_, rfl, by norm_num [defaultVoiceConfig], by norm_num [c2roll]⟩
  norm_num [separateVoices, createTimeWindows, timeWindowsLoop, sepStep,
    classifyWindow, classifyStep, melodyCandidates, bassNoteOf, markAs,
    mkNote, mkPianoRoll, sortByTime, List.insertionSort, List.orderedInsert,
    defaultVoiceConfig, c2roll, c2melody, c2harmony, c2bass, nt,
    List.contains, List.elem_eq_mem, decide_eq_true_eq, List.mem_cons,
    List.mem_singleton, Note.mk.injEq, keyLe, List.cons_ne_nil]

/-- C2's witness window: pitches 30, 60, 80 — the lowest is a genuine bass
candidate. -/
def c2w : List Note := [nt 30 0 1, nt 60 0 1, nt 80 0 1]

theorem c2w_eval :
    classifyWindow defaultVoiceConfig c2w =
      Except.ok
        ([⟨60, 0, 1, 64, NoteType.melody⟩, ⟨80, 0, 1, 64, NoteType.melody⟩],
          [], [⟨30, 0, 1, 64, NoteType.bass⟩]) := by
  norm_num [classifyWindow, classifyStep, melodyCandidates, bassNoteOf,
    markAs, mkNote, List.insertionSort, List.orderedInsert,
    defaultVoiceConfig, c2w, nt, List.contains, List.elem_eq_mem,
    decide_eq_true_eq, List.mem_cons, List.mem_singleton, Note.mk.injEq,
    List.getLast?]

theorem c2w_bassNote : bassNoteOf c2w = some (nt 30 0 1) := by
  norm_num [bassNoteOf, List.insertionSort, List.orderedInsert, c2w, nt,
    List.getLast?]

/-- C2, witness: the amended theorem applied to the window `c2w`. -/
theorem classify_window_bass_iff_witness :
    ([(⟨30, 0, 1, 64, NoteType.bass⟩ : Note)] ≠ [] ↔
      nt 30 0 1 ∉ melodyCandidates defaultVoiceConfig c2w ∧
        (nt 30 0 1).pitch ≤ defaultVoiceConfig.bass_pitch_threshold) :=
  classify_window_bass_iff defaultVoiceConfig c2w _ _ _ (nt 30 0 1)
    (by norm_num [c2w]) c2w_bassNote c2w_eval

/-- C10's witness roll: same three pitches as `c2w`. -/
def c10roll : PianoRoll := ⟨[nt 30 0 1, nt 60 0 1, nt 80 0 1], 120, (4, 4), 0⟩

/-- Voice rolls the separator produces on `c10roll`. -/
def c10melody : PianoRoll :=
  ⟨[⟨60, 0, 1, 64, NoteType.melody⟩, ⟨80, 0, 1, 64, NoteType.melody⟩],
    120, (4, 4), 0⟩

/-- Harmony roll for `c10roll` (empty). -/
def c10harmony : PianoRoll := ⟨[], 120, (4, 4), 0⟩

/-- Bass roll for `c10roll`: the pitch-30 note. -/
def c10bass : PianoRoll := ⟨[⟨30, 0, 1, 64, NoteType.bass⟩], 120, (4, 4), 0⟩

theorem c10_eval :
    separateVoices defaultVoiceConfig c10roll =
      Except.ok (c10melody, c10harmony, c10bass) := by
  norm_num [separateVoices, createTimeWindows, timeWindowsLoop, sepStep,
    classifyWindow, classifyStep, melodyCandidates, bassNoteOf, markAs,
    mkNote, mkPianoRoll, sortByTime, List.insertionSort, List.orderedInsert,
    defaultVoiceConfig, c10roll, c10melody, c10harmony, c10bass, nt,
    List.contains, List.elem_eq_mem, decide_eq_true_eq, List.mem_cons,
    List.mem_singleton, Note.mk.injEq, keyLe, List.cons_ne_nil,
    List.getLast?]

/-- C10, witness: the theorem applied to `c10roll` and its bass note. -/
theorem separate_voices_bass_below_threshold_witness :
    (⟨30, 0, 1, 64, NoteType.bass⟩ : Note).pitch ≤
      defaultVoiceConfig.bass_pitch_threshold :=
  separate_voices_bass_below_threshold defaultVoiceConfig c10roll c10melody
    c10harmony c10bass c10_eval _ (by norm_num [c10bass])

theorem mapWithIdx_map_eq_map {f : ℕ → α → β} {g : β → γ} {h : α → γ}
    (hyp : ∀ i a, g (f i a) = h a) :
    ∀ (k : ℕ) (l : List α), (mapWithIdx f k l).map g = l.map h := by
  intro k l
  induction l generalizing k with
  | nil => rfl
  | cons a l ih => simp [mapWithIdx, hyp, ih]

theorem mem_mapWithIdx {f : ℕ → α → β} :
    ∀ {k : ℕ} {l : List α} {b : β},
      b ∈ mapWithIdx f k l → ∃ i a, a ∈ l ∧ b = f i a := by
  intro k l
  induction l generalizing k with
  | nil => intro b hb; cases hb
  | cons a l ih =>
    intro b hb
    rcases List.mem_cons.mp hb with rfl | hb
    · exact ⟨k, a, List.mem_cons_self _ _, rfl⟩
    · obtain ⟨i, a', ha', rfl⟩ := ih hb
      exact ⟨i, a', List.mem_cons_of_mem _ ha', rfl⟩

theorem mapWithIdx_map_note_id {f : ℕ → α → β} {g : β → α}
    (hyp : ∀ i a, g (f i a) = a) :
    ∀ (k : ℕ) (l : List α), (mapWithIdx f k l).map g = l := by
  intro k l
  induction l generalizing k with
  | nil => rfl
  | cons a l ih => simp [mapWithIdx, hyp, ih]

theorem redistributeNotes_map_note (as : List HandAssignment)
    (f t : Hand) :
    (redistributeNotes as f t).map HandAssignment.note =
      as.map HandAssignment.note := by
  unfold redistributeNotes
  dsimp only
  split
  · rfl
  · refine mapWithIdx_map_eq_map ?_ 0 as
    intro i a
    split <;> rfl

theorem redistributeNotes_hands {P : Hand → Prop} (as : List HandAssignment)
    (f t : Hand) (h : ∀ a ∈ as, P a.hand) (ht : P t) :
    ∀ a ∈ redistributeNotes as f t, P a.hand := by
  intro a ha
  unfold redistributeNotes at ha
  dsimp only at ha
  split at ha
  · exact h a ha
  · obtain ⟨i, a', ha', rfl⟩ := mem_mapWithIdx ha
    split
    · exact ht
    · exact h a' ha'

theorem validateAndAdjust_map_note (cfg : HandAssignmentConfig)
    (as : List HandAssignment) :
    (validateAndAdjust cfg as).map HandAssignment.note =
      as.map HandAssignment.note := by
  unfold validateAndAdjust
  dsimp only
  split <;> split <;>
    simp [redistributeNotes_map_note]

theorem validateAndAdjust_hands (cfg : HandAssignmentConfig)
    (as : List HandAssignment)
    (h : ∀ a ∈ as, a.hand = Hand.left ∨ a.hand = Hand.right) :
    ∀ a ∈ validateAndAdjust cfg as,
      a.hand = Hand.left ∨ a.hand = Hand.right := by
  unfold validateAndAdjust
  dsimp only
  split <;> split
  · exact redistributeNotes_hands
      (P := fun x => x = Hand.left ∨ x = Hand.right) _ _ _
      (redistributeNotes_hands
        (P := fun x => x = Hand.left ∨ x = Hand.right) _ _ _ h (Or.inl rfl))
      (Or.inr rfl)
  · exact redistributeNotes_hands
      (P := fun x => x = Hand.left ∨ x = Hand.right) _ _ _ h (Or.inr rfl)
  · exact redistributeNotes_hands
      (P := fun x => x = Hand.left ∨ x = Hand.right) _ _ _ h (Or.inl rfl)
  · exact h

theorem assignSingleNote_note (cfg : HandAssignmentConfig) (n : Note) :
    (assignSingleNote cfg n).note = n := by
  unfold assignSingleNote
  split <;> rfl

theorem assignSingleNote_hand (cfg : HandAssignmentConfig) (n : Note) :
    (assignSingleNote cfg n).hand = Hand.left ∨
      (assignSingleNote cfg n).hand = Hand.right := by
  unfold assignSingleNote
  split
  · exact Or.inl rfl
  · exact Or.inr rfl

theorem assignGroup_notes_perm (cfg : HandAssignmentConfig)
    (g : List Note) :
    ((assignGroup cfg g).map HandAssignment.note).Perm g := by
  match g with
  | [] => exact List.Perm.refl _
  | [n] =>
    show [(assignSingleNote cfg n).note].Perm [n]
    rw [assignSingleNote_note]
  | n1 :: n2 :: rest =>
    show ((validateAndAdjust cfg _).map HandAssignment.note).Perm _
    rw [validateAndAdjust_map_note]
    rw [mapWithIdx_map_note_id (fun i a => rfl) 0 _]
    exact List.perm_insertionSort _ _

theorem assignGroup_hands (cfg : HandAssignmentConfig) (g : List Note) :
    ∀ a ∈ assignGroup cfg g, a.hand = Hand.left ∨ a.hand = Hand.right := by
  match g with
  | [] => intro a ha; cases ha
  | [n] =>
    intro a ha
    have ha2 : a ∈ [assignSingleNote cfg n] := ha
    rw [List.mem_singleton] at ha2
    rw [ha2]
    exact assignSingleNote_hand cfg n
  | n1 :: n2 :: rest =>
    refine validateAndAdjust_hands cfg _ ?_
    intro a ha
    obtain ⟨i, a', ha', rfl⟩ := mem_mapWithIdx ha
    dsimp only
    split
    · exact Or.inl rfl
    · exact Or.inr rfl

theorem flatMap_assignGroup_perm (cfg : HandAssignmentConfig) :
    ∀ gs : List (List Note),
      ((gs.flatMap (assignGroup cfg)).map HandAssignment.note).Perm
        gs.flatten := by
  intro gs
  induction gs with
  | nil => exact List.Perm.refl _
  | cons g gs ih =>
    rw [List.flatMap_cons, List.map_append, List.flatten_cons]
    exact (assignGroup_notes_perm cfg g).append ih

theorem groupByTimeLoop_flatten (thr : ℚ) :
    ∀ (l : List Note) (anchor : ℚ) (cur : List Note),
      (groupByTimeLoop thr anchor cur l).flatten = cur ++ l := by
  intro l
  induction l with
  | nil => intro anchor cur; simp [groupByTimeLoop]
  | cons n l ih =>
    intro anchor cur
    unfold groupByTimeLoop
    split
    · rw [ih]
      simp
    · rw [List.flatten_cons, ih]
      simp

theorem groupByTime_flatten (thr : ℚ) (notes : List Note) :
    (groupByTime thr notes).flatten.Perm notes := by
  unfold groupByTime
  split
  · rename_i heq
    have h2 := List.perm_insertionSort
      (fun a b : Note => a.start ≤ b.start) notes
    rw [heq] at h2
    exact h2
  · rename_i n l heq
    rw [groupByTimeLoop_flatten]
    have h2 := List.perm_insertionSort
      (fun a b : Note => a.start ≤ b.start) notes
    rw [heq] at h2
    exact h2

theorem filter_hand_partition :
    ∀ as : List HandAssignment,
      (∀ a ∈ as, a.hand = Hand.left ∨ a.hand = Hand.right) →
        ((as.filter (fun a => a.hand = Hand.right)) ++
            as.filter (fun a => a.hand = Hand.left)).Perm as := by
  intro as
  induction as with
  | nil => intro _; exact List.Perm.refl _
  | cons a as ih =>
    intro h
    have htl := ih fun x hx => h x (List.mem_cons_of_mem _ hx)
    rcases h a (List.mem_cons_self _ _) with hl | hr
    · rw [List.filter_cons_of_neg (by simp [hl]),
        List.filter_cons_of_pos (by simp [hl])]
      exact List.perm_middle.trans (htl.cons a)
    · rw [List.filter_cons_of_pos (by simp [hr]),
        List.filter_cons_of_neg (by simp [hr])]
      exact htl.cons a

/-- Sorting by time is a permutation, so it leaves the underlying multiset
of notes unchanged. -/
theorem coe_sortByTime (l : List Note) :
    (↑(sortByTime l) : Multiset Note) = ↑l := by
  unfold sortByTime
  exact Multiset.coe_eq_coe.mpr (List.perm_insertionSort _ _)

/-- C7.  `assign_hands` partitions its input: as multisets, the right-hand
roll's notes plus the left-hand roll's notes are exactly the input roll's
notes — every input note appears in exactly one of the two output rolls,
none duplicated, none dropped, including after the bounded redistribution
pass (which only flips hands, never adds or removes an assignment). -/
theorem assign_hands_partition (cfg : HandAssignmentConfig)
    (roll rh lh : PianoRoll)
    (hok : assignHands cfg roll = Except.ok (rh, lh)) :
    (↑rh.notes : Multiset Note) + ↑lh.notes = ↑roll.notes := by
  unfold assignHands at hok
  split at hok
  · rename_i hnil
    split at hok
    · cases hok
    · rename_i empty hmk
      simp only [Except.ok.injEq, Prod.mk.injEq] at hok
      obtain ⟨rfl, rfl⟩ := hok
      rw [mkPianoRoll_ok hmk, hnil]
      dsimp only
      rw [coe_sortByTime]
      simp
  · rename_i hnil
    dsimp only at hok
    split at hok
    · cases hok
    · rename_i right_hand hmkr
      split at hok
      · cases hok
      · rename_i left_hand hmkl
        simp only [Except.ok.injEq, Prod.mk.injEq] at hok
        obtain ⟨rfl, rfl⟩ := hok
        rw [mkPianoRoll_ok hmkr, mkPianoRoll_ok hmkl]
        dsimp only
        have hhands :
            ∀ a ∈ (groupByTime (1 / 20) roll.notes).flatMap (assignGroup cfg),
              a.hand = Hand.left ∨ a.hand = Hand.right := by
          intro a ha
          rw [List.mem_flatMap] at ha
          obtain ⟨g, hg, hag⟩ := ha
          exact assignGroup_hands cfg g a hag
        have h1 := filter_hand_partition _ hhands
        have h2 :=
          (flatMap_assignGroup_perm cfg
                (groupByTime (1 / 20) roll.notes)).trans
            (groupByTime_flatten (1 / 20) roll.notes)
        rw [coe_sortByTime, coe_sortByTime, Multiset.coe_add,
          ← List.map_append, Multiset.coe_eq_coe]
        exact ((h1.map HandAssignment.note).trans h2)

/-- Witness for the partition theorem at a one-note roll: the note at the
split pitch goes to the right hand, the left hand is empty, and the two
output multisets sum to the input's. -/
theorem assign_hands_partition_witness :
    assignHands defaultHandConfig c7roll = Except.ok (c7rh, c7lh) ∧
      (↑c7rh.notes : Multiset Note) + ↑c7lh.notes = ↑c7roll.notes := by
  have h : assignHands defaultHandConfig c7roll = Except.ok (c7rh, c7lh) := by
    norm_num [assignHands, c7roll, c7rh, c7lh, nt, defaultHandConfig,
      groupByTime, groupByTimeLoop, assignGroup, assignSingleNote,
      mkPianoRoll, sortByTime, List.insertionSort, List.orderedInsert,
      List.flatMap, List.filter]
  exact ⟨h, assign_hands_partition defaultHandConfig c7roll c7rh c7lh h⟩

/-! ## Chord detector: onset bucketing -/

/-- Every group of `appendFirstMatch` comes from a group of the input, at
the same key, with the note appended to at most one of them. -/
theorem mem_appendFirstMatch (thr : ℚ) (n : Note) :
    ∀ gs : List (ℚ × List Note), ∀ g ∈ appendFirstMatch thr n gs,
      ∃ g0 ∈ gs, g.1 = g0.1 ∧ (g.2 = g0.2 ∨ g.2 = g0.2 ++ [n]) := by
  intro gs
  induction gs with
  | nil => intro g hg; cases hg
  | cons h t ih =>
    intro g hg
    unfold appendFirstMatch at hg
    split at hg
    · rcases List.mem_cons.mp hg with rfl | hgt
      · exact ⟨h, List.mem_cons_self h t, rfl, Or.inr rfl⟩
      · exact ⟨g, List.mem_cons_of_mem h hgt, rfl, Or.inl rfl⟩
    · rcases List.mem_cons.mp hg with rfl | hgt
      · exact ⟨_, List.mem_cons_self _ _, rfl, Or.inl rfl⟩
      · obtain ⟨g0, hg0, hk, hm⟩ := ih g hgt
        exact ⟨g0, List.mem_cons_of_mem h hg0, hk, hm⟩

/-- Every group of `dictAppend` comes from the input (possibly with the
note appended), or is the fresh singleton bucket. -/
theorem mem_dictAppend (key : ℚ) (n : Note) :
    ∀ gs : List (ℚ × List Note), ∀ g ∈ dictAppend key n gs,
      (∃ g0 ∈ gs, g.1 = g0.1 ∧ (g.2 = g0.2 ∨ g.2 = g0.2 ++ [n])) ∨
        g = (key, [n]) := by
  intro gs
  induction gs with
  | nil =>
    intro g hg
    unfold dictAppend at hg
    rw [List.mem_singleton] at hg
    exact Or.inr hg
  | cons h t ih =>
    intro g hg
    unfold dictAppend at hg
    split at hg
    · rcases List.mem_cons.mp hg with rfl | hgt
      · exact Or.inl ⟨h, List.mem_cons_self h t, rfl, Or.inr rfl⟩
      · exact Or.inl ⟨g, List.mem_cons_of_mem h hgt, rfl, Or.inl rfl⟩
    · rcases List.mem_cons.mp hg with rfl | hgt
      · exact Or.inl ⟨_, List.mem_cons_self _ _, rfl, Or.inl rfl⟩
      · rcases ih g hgt with ⟨g0, hg0, hk, hm⟩ | hnew
        · exact Or.inl ⟨g0, List.mem_cons_of_mem h hg0, hk, hm⟩
        · exact Or.inr hnew

/-- Every group after one `addToGroups` step comes from the input (same
key, possibly with the note appended) or is the fresh bucket keyed by the
note's own onset. -/
theorem mem_addToGroups (thr : ℚ) (n : Note) (gs : List (ℚ × List Note)) :
    ∀ g ∈ addToGroups thr gs n,
      (∃ g0 ∈ gs, g.1 = g0.1 ∧ (g.2 = g0.2 ∨ g.2 = g0.2 ++ [n])) ∨
        g = (n.start, [n]) := by
  intro g hg
  unfold addToGroups at hg
  split at hg
  · exact Or.inl (mem_appendFirstMatch thr n gs g hg)
  · exact mem_dictAppend n.start n gs g hg

/-- Bucket invariant through the whole `_group_by_onset` fold: when the
notes arrive in non-decreasing onset order and every existing key is at
most every remaining onset, each final bucket contains a note at its key
and no note before it. -/
theorem foldl_addToGroups_binv (thr : ℚ) :
    ∀ (notes : List Note) (gs : List (ℚ × List Note)),
      List.Pairwise (fun a b : Note => a.start ≤ b.start) notes →
      (∀ g ∈ gs, ∀ n ∈ notes, g.1 ≤ n.start) →
      (∀ g ∈ gs, (∃ m ∈ g.2, m.start = g.1) ∧ ∀ m ∈ g.2, g.1 ≤ m.start) →
      ∀ g ∈ notes.foldl (addToGroups thr) gs,
        (∃ m ∈ g.2, m.start = g.1) ∧ ∀ m ∈ g.2, g.1 ≤ m.start := by
  intro notes
  induction notes with
  | nil => intro gs _ _ hb; exact hb
  | cons n rest ih =>
    intro gs hp hk hb
    rw [List.foldl_cons]
    apply ih
    · exact hp.of_cons
    · intro g hg m hm
      rcases mem_addToGroups thr n gs g hg with ⟨g0, hg0, hk0, _⟩ | rfl
      · rw [hk0]
        exact hk g0 hg0 m (List.mem_cons_of_mem n hm)
      · exact (List.pairwise_cons.mp hp).1 m hm
    · intro g hg
      rcases mem_addToGroups thr n gs g hg with ⟨g0, hg0, hk0, hm0⟩ | rfl
      · obtain ⟨⟨m0, hm0mem, hm0eq⟩, hble⟩ := hb g0 hg0
        rcases hm0 with h2 | h2
        · refine ⟨⟨m0, ?_, ?_⟩, ?_⟩
          · rw [h2]; exact hm0mem
          · rw [hk0]; exact hm0eq
          · intro m hm
            rw [hk0]
            rw [h2] at hm
            exact hble m hm
        · refine ⟨⟨m0, ?_, ?_⟩, ?_⟩
          · rw [h2]; exact List.mem_append_left _ hm0mem
          · rw [hk0]; exact hm0eq
          · intro m hm
            rw [hk0]
            rw [h2] at hm
            rcases List.mem_append.mp hm with hmo | hmn
            · exact hble m hmo
            · rw [List.mem_singleton] at hmn
              subst hmn
              exact hk g0 hg0 m (List.mem_cons_self _ _)
      · refine ⟨⟨n, List.mem_singleton.mpr rfl, rfl⟩, ?_⟩
        intro m hm
        rw [List.mem_singleton] at hm
        subst hm
        exact le_refl _

/-- A fold of `min` over a list that contains `k` and is bounded below by
`k` returns `k` (how `Chord.start` computes the earliest onset). -/
theorem foldl_min_eq (k : ℚ) :
    ∀ (xs : List ℚ) (x : ℚ), k ∈ x :: xs → (∀ y ∈ x :: xs, k ≤ y) →
      xs.foldl min x = k := by
  intro xs
  induction xs with
  | nil =>
    intro x hmem hle
    rw [List.mem_singleton] at hmem
    rw [List.foldl_nil]
    exact hmem.symm
  | cons y t ih =>
    intro x hmem hle
    rw [List.foldl_cons]
    apply ih
    · rcases List.mem_cons.mp hmem with h1 | h2
      · have hy : k ≤ y := hle y (List.mem_cons_of_mem _ (List.mem_cons_self y t))
        rw [List.mem_cons]
        left
        rw [h1]
        rw [h1] at hy
        exact (min_eq_left hy).symm
      · rcases List.mem_cons.mp h2 with h3 | h4
        · have hx : k ≤ x := hle x (List.mem_cons_self x _)
          rw [List.mem_cons]
          left
          rw [h3]
          rw [h3] at hx
          exact (min_eq_right hx).symm
        · exact List.mem_cons_of_mem _ h4
    · intro z hz
      rcases List.mem_cons.mp hz with rfl | h2
      · exact le_min (hle x (List.mem_cons_self _ _))
          (hle y (List.mem_cons_of_mem _ (List.mem_cons_self y t)))
      · exact hle z (List.mem_cons_of_mem _ (List.mem_cons_of_mem _ h2))

/-- `_create_chord` keeps the earliest onset: if `k` is the onset of some
member and no member starts earlier, the chord's start is `k` (the
pitch sort inside `_create_chord` is a permutation). -/
theorem chord_start_eq (cfg : ChordDetectionConfig) (b : List Note) (k : ℚ)
    (hmem : ∃ m ∈ b, m.start = k) (hle : ∀ m ∈ b, k ≤ m.start) :
    (createChord cfg b).start = k := by
  obtain ⟨m0, hm0, hm0eq⟩ := hmem
  have hperm : (List.insertionSort (fun a b : Note => a.pitch ≤ b.pitch) b).Perm b :=
    List.perm_insertionSort _ _
  have hnotes : (createChord cfg b).notes
      = List.insertionSort (fun a b : Note => a.pitch ≤ b.pitch) b := rfl
  unfold Chord.start
  rw [hnotes]
  cases hs : List.insertionSort (fun a b : Note => a.pitch ≤ b.pitch) b with
  | nil =>
    exfalso
    rw [hs] at hperm
    rw [hperm.symm.eq_nil] at hm0
    cases hm0
  | cons h t =>
    rw [hs] at hperm
    show (t.map Note.start).foldl min h.start = k
    apply foldl_min_eq
    · have hm0' : m0 ∈ h :: t := hperm.mem_iff.mpr hm0
      rw [← hm0eq]
      exact List.mem_map_of_mem Note.start hm0'
    · intro y hy
      rw [← List.map_cons] at hy
      obtain ⟨m1, hm1, rfl⟩ := List.mem_map.mp hy
      exact hle m1 (hperm.mem_iff.mp hm1)

/-- `appendFirstMatch` appends the note to the first bucket whose key is
within the threshold, leaving every bucket before it (all non-matching)
and after it untouched. -/
theorem appendFirstMatch_split (thr : ℚ) (n : Note) :
    ∀ gs : List (ℚ × List Note),
      gs.any (fun g => decide (|n.start - g.1| ≤ thr)) = true →
      ∃ p g0 s, gs = p ++ g0 :: s ∧
        (∀ g ∈ p, ¬ |n.start - g.1| ≤ thr) ∧ |n.start - g0.1| ≤ thr ∧
        appendFirstMatch thr n gs = p ++ (g0.1, g0.2 ++ [n]) :: s := by
  intro gs
  induction gs with
  | nil => intro h; simp at h
  | cons h t ih =>
    intro hany
    by_cases hm : |n.start - h.1| ≤ thr
    · refine ⟨[], h, t, rfl, ?_, hm, ?_⟩
      · intro g hg; cases hg
      · unfold appendFirstMatch
        rw [if_pos hm]
        rfl
    · have ht : t.any (fun g => decide (|n.start - g.1| ≤ thr)) = true := by
        simp only [List.any_cons, Bool.or_eq_true, decide_eq_true_eq] at hany
        rcases hany with h1 | h1
        · exact absurd h1 hm
        · simpa using h1
      obtain ⟨p, g0, s, hgs, hp, hg0, happ⟩ := ih ht
      refine ⟨h :: p, g0, s, ?_, ?_, hg0, ?_⟩
      · rw [hgs]; rfl
      · intro g hg
        rcases List.mem_cons.mp hg with rfl | hgp
        · exact hm
        · exact hp g hgp
      · unfold appendFirstMatch
        rw [if_neg hm, happ]
        rfl

/-- When the key is new (not among the existing keys), `dictAppend`
adds the fresh bucket at the end. -/
theorem dictAppend_not_mem (key : ℚ) (n : Note) :
    ∀ gs : List (ℚ × List Note), key ∉ gs.map Prod.fst →
      dictAppend key n gs = gs ++ [(key, [n])] := by
  intro gs
  induction gs with
  | nil => intro _; rfl
  | cons h t ih =>
    intro hk
    rw [List.map_cons, List.mem_cons] at hk
    push_neg at hk
    unfold dictAppend
    rw [if_neg (fun he => hk.1 he.symm), ih hk.2]
    rfl

/-- `find?` skips a prefix on which the predicate never holds. -/
theorem findq_append_none {α : Type} (p : α → Bool) (l₁ l₂ : List α)
    (h : l₁.find? p = none) : (l₁ ++ l₂).find? p = l₂.find? p := by
  induction l₁ with
  | nil => rfl
  | cons a t ih =>
    by_cases hpa : p a = true
    · rw [List.find?_cons_of_pos _ hpa] at h
      cases h
    · have hpa' : ¬ p a = true := hpa
      rw [List.find?_cons_of_neg _ hpa'] at h
      rw [List.cons_append, List.find?_cons_of_neg _ hpa']
      exact ih h

/-- `find?` ignores anything appended after a successful search. -/
theorem findq_append_some {α : Type} (p : α → Bool) (l₁ l₂ : List α) (a : α)
    (h : l₁.find? p = some a) : (l₁ ++ l₂).find? p = some a := by
  induction l₁ with
  | nil => simp at h
  | cons b t ih =>
    by_cases hpb : p b = true
    · rw [List.find?_cons_of_pos _ hpb] at h
      rw [List.cons_append, List.find?_cons_of_pos _ hpb]
      exact h
    · rw [List.find?_cons_of_neg _ hpb] at h
      rw [List.cons_append, List.find?_cons_of_neg _ hpb]
      exact ih h

/-- One `addToGroups` step preserves the bucketing invariant: keys stay
distinct, and every note already filed is filed under the first key (in
dict insertion order) within the threshold of its onset. -/
theorem addToGroups_step (thr : ℚ) (hthr : 0 ≤ thr) (n : Note)
    (gs : List (ℚ × List Note))
    (h1 : (gs.map Prod.fst).Nodup)
    (h2 : ∀ g ∈ gs, ∀ m ∈ g.2,
      (gs.map Prod.fst).find? (fun k => decide (|m.start - k| ≤ thr)) =
        some g.1) :
    ((addToGroups thr gs n).map Prod.fst).Nodup ∧
      ∀ g ∈ addToGroups thr gs n, ∀ m ∈ g.2,
        ((addToGroups thr gs n).map Prod.fst).find?
            (fun k => decide (|m.start - k| ≤ thr)) = some g.1 := by
  unfold addToGroups
  split
  · rename_i hany
    obtain ⟨p, g0, s, hgs, hp, hg0, happ⟩ := appendFirstMatch_split thr n gs hany
    rw [happ]
    have hkeys : (p ++ (g0.1, g0.2 ++ [n]) :: s).map Prod.fst = gs.map Prod.fst := by
      rw [hgs]
      simp
    rw [hkeys]
    refine ⟨h1, ?_⟩
    intro g hg m hm
    rcases List.mem_append.mp hg with hgp | hgc
    · have hgin : g ∈ gs := by
        rw [hgs]
        exact List.mem_append_left _ hgp
      exact h2 g hgin m hm
    · rcases List.mem_cons.mp hgc with rfl | hgs2
      · rcases List.mem_append.mp hm with hmo | hmn
        · have hg0in : g0 ∈ gs := by
            rw [hgs]
            exact List.mem_append_right _ (List.mem_cons_self _ _)
          exact h2 g0 hg0in m hmo
        · rw [List.mem_singleton] at hmn
          subst hmn
          rw [hgs, List.map_append, List.map_cons]
          have hnone : (p.map Prod.fst).find?
              (fun k => decide (|m.start - k| ≤ thr)) = none := by
            rw [List.find?_eq_none]
            intro x hx
            obtain ⟨g1, hgp2, rfl⟩ := List.mem_map.mp hx
            simpa using hp g1 hgp2
          rw [findq_append_none _ _ _ hnone]
          exact List.find?_cons_of_pos _ (decide_eq_true hg0)
      · have hgin : g ∈ gs := by
          rw [hgs]
          exact List.mem_append_right _ (List.mem_cons_of_mem _ hgs2)
        exact h2 g hgin m hm
  · rename_i hany
    have hnotmem : n.start ∉ gs.map Prod.fst := by
      intro hmem
      obtain ⟨g, hgin, hfst⟩ := List.mem_map.mp hmem
      apply hany
      rw [List.any_eq_true]
      refine ⟨g, hgin, ?_⟩
      rw [decide_eq_true_eq, hfst, sub_self, abs_zero]
      exact hthr
    rw [dictAppend_not_mem n.start n gs hnotmem]
    have hkeys2 : ((gs ++ [(n.start, [n])]).map Prod.fst)
        = gs.map Prod.fst ++ [n.start] := by
      simp
    rw [hkeys2]
    constructor
    · rw [List.nodup_append]
      refine ⟨h1, List.nodup_singleton _, ?_⟩
      intro a ha hb
      rw [List.mem_singleton] at hb
      subst hb
      exact hnotmem ha
    · intro g hg m hm
      rcases List.mem_append.mp hg with hgin | hgnew
      · exact findq_append_some _ _ _ _ (h2 g hgin m hm)
      · rw [List.mem_singleton] at hgnew
        subst hgnew
        rw [List.mem_singleton] at hm
        subst hm
        have hnone : (gs.map Prod.fst).find?
            (fun k => decide (|m.start - k| ≤ thr)) = none := by
          rw [List.find?_eq_none]
          intro x hx
          obtain ⟨g1, hgin, rfl⟩ := List.mem_map.mp hx
          intro hdec
          apply hany
          rw [List.any_eq_true]
          exact ⟨g1, hgin, hdec⟩
        rw [findq_append_none _ _ _ hnone]
        refine List.find?_cons_of_pos _ ?_
        rw [decide_eq_true_eq, sub_self, abs_zero]
        exact hthr

/-- The bucketing invariant holds after the whole `_group_by_onset` fold
(for a non-negative threshold): keys are distinct and every filed note's
first matching key is its own bucket's key. -/
theorem foldl_addToGroups_find (thr : ℚ) (hthr : 0 ≤ thr) :
    ∀ (notes : List Note) (gs : List (ℚ × List Note)),
      (gs.map Prod.fst).Nodup →
      (∀ g ∈ gs, ∀ m ∈ g.2,
        (gs.map Prod.fst).find? (fun k => decide (|m.start - k| ≤ thr)) =
          some g.1) →
      ((notes.foldl (addToGroups thr) gs).map Prod.fst).Nodup ∧
        ∀ g ∈ notes.foldl (addToGroups thr) gs, ∀ m ∈ g.2,
          ((notes.foldl (addToGroups thr) gs).map Prod.fst).find?
              (fun k => decide (|m.start - k| ≤ thr)) = some g.1 := by
  intro notes
  induction notes with
  | nil => intro gs h1 h2; exact ⟨h1, h2⟩
  | cons n rest ih =>
    intro gs h1 h2
    rw [List.foldl_cons]
    obtain ⟨h1', h2'⟩ := addToGroups_step thr hthr n gs h1 h2
    exact ih (addToGroups thr gs n) h1' h2'

/-- Buckets persist through `appendFirstMatch`: each input bucket is
still present (same key, members kept). -/
theorem appendFirstMatch_persist (thr : ℚ) (n : Note) :
    ∀ gs : List (ℚ × List Note), ∀ g0 ∈ gs,
      ∃ g ∈ appendFirstMatch thr n gs, g.1 = g0.1 ∧ ∀ m ∈ g0.2, m ∈ g.2 := by
  intro gs
  induction gs with
  | nil => intro g0 hg0; cases hg0
  | cons h t ih =>
    intro g0 hg0
    unfold appendFirstMatch
    split
    · rcases List.mem_cons.mp hg0 with rfl | hg0t
      · exact ⟨(g0.1, g0.2 ++ [n]), List.mem_cons_self _ _, rfl,
          fun m hm => List.mem_append_left _ hm⟩
      · exact ⟨g0, List.mem_cons_of_mem _ hg0t, rfl, fun m hm => hm⟩
    · rcases List.mem_cons.mp hg0 with rfl | hg0t
      · exact ⟨g0, List.mem_cons_self _ _, rfl, fun m hm => hm⟩
      · obtain ⟨g, hg, hk, hsub⟩ := ih g0 hg0t
        exact ⟨g, List.mem_cons_of_mem _ hg, hk, hsub⟩

/-- Buckets persist through `dictAppend`. -/
theorem dictAppend_persist (key : ℚ) (n : Note) :
    ∀ gs : List (ℚ × List Note), ∀ g0 ∈ gs,
      ∃ g ∈ dictAppend key n gs, g.1 = g0.1 ∧ ∀ m ∈ g0.2, m ∈ g.2 := by
  intro gs
  induction gs with
  | nil => intro g0 hg0; cases hg0
  | cons h t ih =>
    intro g0 hg0
    unfold dictAppend
    split
    · rcases List.mem_cons.mp hg0 with rfl | hg0t
      · exact ⟨(g0.1, g0.2 ++ [n]), List.mem_cons_self _ _, rfl,
          fun m hm => List.mem_append_left _ hm⟩
      · exact ⟨g0, List.mem_cons_of_mem _ hg0t, rfl, fun m hm => hm⟩
    · rcases List.mem_cons.mp hg0 with rfl | hg0t
      · exact ⟨g0, List.mem_cons_self _ _, rfl, fun m hm => hm⟩
      · obtain ⟨g, hg, hk, hsub⟩ := ih g0 hg0t
        exact ⟨g, List.mem_cons_of_mem _ hg, hk, hsub⟩

/-- Buckets persist through one `addToGroups` step. -/
theorem addToGroups_persist (thr : ℚ) (n : Note)
    (gs : List (ℚ × List Note)) :
    ∀ g0 ∈ gs,
      ∃ g ∈ addToGroups thr gs n, g.1 = g0.1 ∧ ∀ m ∈ g0.2, m ∈ g.2 := by
  intro g0 hg0
  unfold addToGroups
  split
  · exact appendFirstMatch_persist thr n gs g0 hg0
  · exact dictAppend_persist n.start n gs g0 hg0

/-- `dictAppend` files the note somewhere. -/
theorem dictAppend_self (key : ℚ) (n : Note) :
    ∀ gs : List (ℚ × List Note), ∃ g ∈ dictAppend key n gs, n ∈ g.2 := by
  intro gs
  induction gs with
  | nil =>
    refine ⟨(key, [n]), ?_, List.mem_singleton.mpr rfl⟩
    unfold dictAppend
    exact List.mem_singleton.mpr rfl
  | cons h t ih =>
    unfold dictAppend
    split
    · exact ⟨(h.1, h.2 ++ [n]), List.mem_cons_self _ _,
        List.mem_append_right _ (List.mem_singleton.mpr rfl)⟩
    · obtain ⟨g, hg, hn⟩ := ih
      exact ⟨g, List.mem_cons_of_mem _ hg, hn⟩

/-- `addToGroups` files the note somewhere. -/
theorem addToGroups_self (thr : ℚ) (n : Note) (gs : List (ℚ × List Note)) :
    ∃ g ∈ addToGroups thr gs n, n ∈ g.2 := by
  unfold addToGroups
  split
  · rename_i hany
    obtain ⟨p, g0, s, hgs, hp, hg0, happ⟩ := appendFirstMatch_split thr n gs hany
    rw [happ]
    exact ⟨(g0.1, g0.2 ++ [n]),
      List.mem_append_right _ (List.mem_cons_self _ _),
      List.mem_append_right _ (List.mem_singleton.mpr rfl)⟩
  · exact dictAppend_self n.start n gs

/-- Buckets persist through the whole fold. -/
theorem foldl_addToGroups_persist (thr : ℚ) :
    ∀ (notes : List Note) (gs : List (ℚ × List Note)) (g0 : ℚ × List Note),
      g0 ∈ gs →
      ∃ g ∈ notes.foldl (addToGroups thr) gs, g.1 = g0.1 ∧
        ∀ m ∈ g0.2, m ∈ g.2 := by
  intro notes
  induction notes with
  | nil => intro gs g0 hg0; exact ⟨g0, hg0, rfl, fun m hm => hm⟩
  | cons n rest ih =>
    intro gs g0 hg0
    rw [List.foldl_cons]
    obtain ⟨g1, hg1, hk1, hsub1⟩ := addToGroups_persist thr n gs g0 hg0
    obtain ⟨g2, hg2, hk2, hsub2⟩ := ih (addToGroups thr gs n) g1 hg1
    exact ⟨g2, hg2, hk2.trans hk1, fun m hm => hsub2 m (hsub1 m hm)⟩

/-- Every processed note ends up in some bucket of the fold's result. -/
theorem foldl_addToGroups_content (thr : ℚ) :
    ∀ (notes : List Note) (gs : List (ℚ × List Note)) (n : Note),
      n ∈ notes →
      ∃ g ∈ notes.foldl (addToGroups thr) gs, n ∈ g.2 := by
  intro notes
  induction notes with
  | nil => intro gs n hn; cases hn
  | cons n0 rest ih =>
    intro gs n hn
    rw [List.foldl_cons]
    rcases List.mem_cons.mp hn with rfl | hn'
    · obtain ⟨g1, hg1, hn1⟩ := addToGroups_self thr n gs
      obtain ⟨g2, hg2, _, hsub⟩ :=
        foldl_addToGroups_persist thr rest (addToGroups thr gs n) g1 hg1
      exact ⟨g2, hg2, hsub n hn1⟩
    · exact ih (addToGroups thr gs n0) n hn'

/-- A list with two distinct members has length at least two. -/
theorem two_le_length_of_mem_ne {α : Type} {a b : α} {l : List α}
    (ha : a ∈ l) (hb : b ∈ l) (hne : a ≠ b) : 2 ≤ l.length := by
  match l with
  | [] => cases ha
  | [x] =>
    rw [List.mem_singleton] at ha hb
    exact absurd (ha.trans hb.symm) hne
  | x :: y :: t =>
    rw [List.length_cons, List.length_cons]
    omega

/-- C6.  `detect_chords` without arpeggio merging (all other settings at
their defaults: `min_chord_size` 2, chord-type analysis on), on a roll
whose notes are sorted by the `(start, pitch)` key as every constructed
`PianoRoll` is: (a) the chords come out in non-decreasing order of chord
start, the start being the earliest onset among the chord's notes; and
(b) any two distinct notes whose first matching onset-bucket key (within
the threshold) is the same key `k` end up in the same detected chord. -/
theorem detect_chords_order_and_grouping
    (thr : ℚ) (roll : PianoRoll)
    (hsort : List.Sorted keyLe roll.notes)
    (cfg : ChordDetectionConfig)
    (hcfg : cfg = ⟨thr, 2, true, false, 3 / 20⟩)
    (cs : List Chord)
    (hok : detectChords cfg roll = Except.ok cs) :
    List.Chain' (fun c d : Chord => c.start ≤ d.start) cs ∧
      ∀ n1 ∈ roll.notes, ∀ n2 ∈ roll.notes, n1 ≠ n2 → ∀ k : ℚ,
        ((groupByOnset thr roll.notes).map Prod.fst).find?
            (fun x => decide (|n1.start - x| ≤ thr)) = some k →
        ((groupByOnset thr roll.notes).map Prod.fst).find?
            (fun x => decide (|n2.start - x| ≤ thr)) = some k →
        ∃ c ∈ cs, n1 ∈ c.notes ∧ n2 ∈ c.notes := by
  subst hcfg
  unfold detectChords at hok
  dsimp only at hok
  rw [if_neg Bool.false_ne_true] at hok
  obtain rfl :
      detectChordsCore ⟨thr, 2, true, false, 3 / 20⟩ roll = cs :=
    Except.ok.inj hok
  have hpw0 : List.Pairwise keyLe roll.notes := hsort
  have hstart : List.Pairwise (fun a b : Note => a.start ≤ b.start)
      roll.notes := by
    refine hpw0.imp ?_
    intro a b hab
    rcases hab with h | ⟨h, _⟩
    · exact le_of_lt h
    · exact le_of_eq h
  by_cases hnil : roll.notes = []
  · have hcs : detectChordsCore
        (⟨thr, 2, true, false, 3 / 20⟩ : ChordDetectionConfig) roll = [] := by
      unfold detectChordsCore
      rw [if_pos hnil]
    rw [hcs]
    constructor
    · exact List.chain'_nil
    · intro n1 hn1
      rw [hnil] at hn1
      cases hn1
  · have hcore : detectChordsCore
        (⟨thr, 2, true, false, 3 / 20⟩ : ChordDetectionConfig) roll =
        ((List.insertionSort (fun a b : ℚ × List Note => a.1 ≤ b.1)
              (groupByOnset thr roll.notes)).filter
            (fun g => (2 : ℤ) ≤ (g.2.length : ℤ))).map
          (fun g => createChord ⟨thr, 2, true, false, 3 / 20⟩ g.2) := by
      unfold detectChordsCore
      rw [if_neg hnil]
    rw [hcore]
    have hfold : groupByOnset thr roll.notes
        = roll.notes.foldl (addToGroups thr) [] := rfl
    have hbinv : ∀ g ∈ groupByOnset thr roll.notes,
        (∃ m ∈ g.2, m.start = g.1) ∧ ∀ m ∈ g.2, g.1 ≤ m.start := by
      rw [hfold]
      exact foldl_addToGroups_binv thr roll.notes [] hstart
        (fun g hg => absurd hg (List.not_mem_nil g))
        (fun g hg => absurd hg (List.not_mem_nil g))
    constructor
    · have hsorted : List.Sorted (fun a b : ℚ × List Note => a.1 ≤ b.1)
          (List.insertionSort (fun a b : ℚ × List Note => a.1 ≤ b.1)
            (groupByOnset thr roll.notes)) :=
        List.sorted_insertionSort _ _
      have hpw : List.Pairwise (fun a b : ℚ × List Note => a.1 ≤ b.1)
          ((List.insertionSort (fun a b : ℚ × List Note => a.1 ≤ b.1)
              (groupByOnset thr roll.notes)).filter
            (fun g => (2 : ℤ) ≤ (g.2.length : ℤ))) :=
        List.Pairwise.filter _ hsorted
      apply List.Pairwise.chain'
      rw [List.pairwise_map]
      refine hpw.imp_of_mem ?_
      intro a b ha hb hab
      have hain : a ∈ groupByOnset thr roll.notes :=
        (List.perm_insertionSort _ _).mem_iff.mp (List.mem_of_mem_filter ha)
      have hbin : b ∈ groupByOnset thr roll.notes :=
        (List.perm_insertionSort _ _).mem_iff.mp (List.mem_of_mem_filter hb)
      obtain ⟨hamem, hale⟩ := hbinv a hain
      obtain ⟨hbmem, hble⟩ := hbinv b hbin
      show (createChord _ a.2).start ≤ (createChord _ b.2).start
      rw [chord_start_eq _ a.2 a.1 hamem hale,
        chord_start_eq _ b.2 b.1 hbmem hble]
      exact hab
    · intro n1 hn1 n2 hn2 hne k hk1 hk2
      have hthr : 0 ≤ thr := by
        have h := List.find?_some hk1
        rw [decide_eq_true_eq] at h
        exact le_trans (abs_nonneg _) h
      obtain ⟨hnodup, hinv⟩ :=
        foldl_addToGroups_find thr hthr roll.notes []
          List.nodup_nil (fun g hg => absurd hg (List.not_mem_nil g))
      obtain ⟨g1, hg1, hn1g⟩ :=
        foldl_addToGroups_content thr roll.notes [] n1 hn1
      obtain ⟨g2, hg2, hn2g⟩ :=
        foldl_addToGroups_content thr roll.notes [] n2 hn2
      have hk1' : ((roll.notes.foldl (addToGroups thr) []).map Prod.fst).find?
          (fun x => decide (|n1.start - x| ≤ thr)) = some k := hk1
      have hk2' : ((roll.notes.foldl (addToGroups thr) []).map Prod.fst).find?
          (fun x => decide (|n2.start - x| ≤ thr)) = some k := hk2
      have e1 := hinv g1 hg1 n1 hn1g
      have e2 := hinv g2 hg2 n2 hn2g
      have hg1k : g1.1 = k := Option.some.inj (e1.symm.trans hk1')
      have hg2k : g2.1 = k := Option.some.inj (e2.symm.trans hk2')
      have hg12 : g1 = g2 :=
        List.inj_on_of_nodup_map hnodup hg1 hg2 (hg1k.trans hg2k.symm)
      subst hg12
      have hlen : 2 ≤ g1.2.length := two_le_length_of_mem_ne hn1g hn2g hne
      have hg1in : g1 ∈ groupByOnset thr roll.notes := hg1
      refine ⟨createChord ⟨thr, 2, true, false, 3 / 20⟩ g1.2, ?_, ?_, ?_⟩
      · rw [List.mem_map]
        refine ⟨g1, ?_, rfl⟩
        rw [List.mem_filter]
        refine ⟨(List.perm_insertionSort _ _).mem_iff.mpr hg1in, ?_⟩
        rw [decide_eq_true_eq]
        exact_mod_cast hlen
      · have hcn : (createChord
              (⟨thr, 2, true, false, 3 / 20⟩ : ChordDetectionConfig)
              g1.2).notes
            = List.insertionSort (fun a b : Note => a.pitch ≤ b.pitch)
                g1.2 := rfl
        rw [hcn]
        exact (List.perm_insertionSort _ _).mem_iff.mpr hn1g
      · have hcn : (createChord
              (⟨thr, 2, true, false, 3 / 20⟩ : ChordDetectionConfig)
              g1.2).notes
            = List.insertionSort (fun a b : Note => a.pitch ≤ b.pitch)
                g1.2 := rfl
        rw [hcn]
        exact (List.perm_insertionSort _ _).mem_iff.mpr hn2g

/-- Witness for the chord ordering/grouping theorem on the two-note roll
`c6roll`: both notes share the bucket key 0, the detector returns the one
chord `c6chord`, its singleton chord list is trivially ordered, and both
notes are in that chord. -/
theorem detect_chords_order_and_grouping_witness :
    List.Chain' (fun c d : Chord => c.start ≤ d.start) [c6chord] ∧
      (nt 60 0 1 ∈ c6chord.notes ∧ nt 64 (1 / 100) 1 ∈ c6chord.notes) := by
  have hsort : List.Sorted keyLe c6roll.notes := by
    norm_num [c6roll, nt, keyLe, List.sorted_cons]
  have hg : groupByOnset (1 / 20 : ℚ) c6roll.notes
      = [(0, [nt 60 0 1, nt 64 (1 / 100) 1])] := by
    norm_num [c6roll, nt, groupByOnset, addToGroups, dictAppend,
      appendFirstMatch, abs_of_nonneg]
  have hok : detectChords
      (⟨1 / 20, 2, true, false, 3 / 20⟩ : ChordDetectionConfig) c6roll
      = Except.ok [c6chord] := by
    have hne_nil : ¬ (c6roll.notes = []) := by
      rw [show c6roll.notes = [nt 60 0 1, nt 64 (1 / 100) 1] from rfl]
      exact List.cons_ne_nil _ _
    show Except.ok
        (detectChordsCore
          (⟨1 / 20, 2, true, false, 3 / 20⟩ : ChordDetectionConfig) c6roll)
      = Except.ok [c6chord]
    congr 1
    unfold detectChordsCore
    rw [if_neg hne_nil, hg]
    norm_num [createChord, findRoot, c6chord, nt, List.insertionSort,
      List.orderedInsert]
  have h := detect_chords_order_and_grouping (1 / 20) c6roll hsort
    (⟨1 / 20, 2, true, false, 3 / 20⟩ : ChordDetectionConfig) rfl [c6chord]
    hok
  refine ⟨h.1, ?_⟩
  have hmem1 : nt 60 0 1 ∈ c6roll.notes := by
    rw [show c6roll.notes = [nt 60 0 1, nt 64 (1 / 100) 1] from rfl]
    exact List.mem_cons_self _ _
  have hmem2 : nt 64 (1 / 100) 1 ∈ c6roll.notes := by
    rw [show c6roll.notes = [nt 60 0 1, nt 64 (1 / 100) 1] from rfl]
    exact List.mem_cons_of_mem _ (List.mem_cons_self _ _)
  have hne : nt 60 0 1 ≠ nt 64 (1 / 100) 1 := by
    norm_num [nt, Note.mk.injEq]
  have hf1 : ((groupByOnset (1 / 20 : ℚ) c6roll.notes).map Prod.fst).find?
      (fun x => decide (|(nt 60 0 1).start - x| ≤ (1 / 20 : ℚ)))
      = some 0 := by
    rw [hg]
    refine List.find?_cons_of_pos _ (decide_eq_true ?_)
    norm_num [nt]
  have hf2 : ((groupByOnset (1 / 20 : ℚ) c6roll.notes).map Prod.fst).find?
      (fun x => decide (|(nt 64 (1 / 100) 1).start - x| ≤ (1 / 20 : ℚ)))
      = some 0 := by
    rw [hg]
    refine List.find?_cons_of_pos _ (decide_eq_true ?_)
    norm_num [nt, abs_of_nonneg]
  obtain ⟨c, hc, hm1, hm2⟩ := h.2 _ hmem1 _ hmem2 hne 0 hf1 hf2
  rw [List.mem_singleton] at hc
  subst hc
  exact ⟨hm1, hm2⟩

/-! ## The C1 difficulty round trip, evaluated -/

/-- The six-note cluster groups into a single onset bucket. -/
theorem c1_group6 :
    groupByOnset (1 / 20 : ℚ)
      [nt 60 0 (1 / 2), nt 63 0 (1 / 2), nt 66 0 (1 / 2), nt 69 0 (1 / 2),
        nt 72 0 (1 / 2), nt 75 0 (1 / 2)]
    = [(0, [nt 60 0 (1 / 2), nt 63 0 (1 / 2), nt 66 0 (1 / 2),
        nt 69 0 (1 / 2), nt 72 0 (1 / 2), nt 75 0 (1 / 2)])] := by
  norm_num [groupByOnset, addToGroups, dictAppend, appendFirstMatch, nt,
    abs_of_nonneg]

/-- The detector finds the one six-note chord on the C1 roll. -/
theorem c1_detect6 :
    detectChordsCore defaultChordConfig c1roll
    = [⟨[nt 60 0 (1 / 2), nt 63 0 (1 / 2), nt 66 0 (1 / 2), nt 69 0 (1 / 2),
        nt 72 0 (1 / 2), nt 75 0 (1 / 2)], some 60⟩] := by
  unfold detectChordsCore
  rw [if_neg (show ¬(c1roll.notes = []) from List.cons_ne_nil _ _),
    show defaultChordConfig.simultaneity_threshold = (1 / 20 : ℚ) from rfl,
    show c1roll.notes = [nt 60 0 (1 / 2), nt 63 0 (1 / 2), nt 66 0 (1 / 2),
      nt 69 0 (1 / 2), nt 72 0 (1 / 2), nt 75 0 (1 / 2)] from rfl,
    c1_group6]
  norm_num [defaultChordConfig, createChord, findRoot, nt,
    List.insertionSort, List.orderedInsert]

/-- The C1 roll plays 6 notes in half a second: 12 notes per second. -/
theorem c1_nps : notesPerSecond c1roll = 12 := by
  norm_num [notesPerSecond, PianoRoll.get_duration, c1roll, nt]

/-- The C1 roll's largest chord has 6 notes. -/
theorem c1_maxsim : getMaxSimultaneousNotes c1roll = 6 := by
  rw [getMaxSimultaneousNotes, c1_detect6]
  norm_num [nt]

/-- The C1 roll's widest chord spans 15 semitones. -/
theorem c1_stretch : getMaxHandStretch c1roll = 15 := by
  rw [getMaxHandStretch, c1_detect6]
  norm_num [nt]

/-- The C1 roll scores as expert (12 nps, 6 simultaneous, 15 semitones
meet only the expert thresholds in full). -/
theorem c1_analyze : analyzeDifficulty c1roll = DifficultyLevel.expert := by
  unfold analyzeDifficulty
  rw [if_neg (show ¬(c1roll.notes = []) from List.cons_ne_nil _ _)]
  rw [c1_nps, c1_maxsim, c1_stretch]
  norm_num [levelOrder, LEVEL_PARAMS]

/-- `_remove_fast_notes` at the beginner cap thins the six-note window to
its top four notes: the two pitch extremes score highest, then the
earlier middle voices in stable order. -/
theorem c1_removeFast :
    removeFastNotes 4
      [nt 60 0 (1 / 2), nt 63 0 (1 / 2), nt 66 0 (1 / 2), nt 69 0 (1 / 2),
        nt 72 0 (1 / 2), nt 75 0 (1 / 2)]
    = [nt 60 0 (1 / 2), nt 75 0 (1 / 2), nt 63 0 (1 / 2),
        nt 66 0 (1 / 2)] := by
  unfold removeFastNotes
  rw [if_neg (List.cons_ne_nil _ _)]
  norm_num [List.insertionSort, List.orderedInsert, nt, fastNotesLoop,
    processFastWindow, selectImportantNotes, pyTrunc, Note.duration,
    Int.toNat_ofNat]
  rfl

/-- The four survivors sort by `(start, pitch)` into pitch order. -/
theorem c1_sortA :
    sortByTime [nt 60 0 (1 / 2), nt 75 0 (1 / 2), nt 63 0 (1 / 2),
        nt 66 0 (1 / 2)]
    = [nt 60 0 (1 / 2), nt 63 0 (1 / 2), nt 66 0 (1 / 2),
        nt 75 0 (1 / 2)] := by
  norm_num [sortByTime, List.insertionSort, List.orderedInsert, keyLe, nt]

/-- The four-note cluster groups into a single onset bucket. -/
theorem c1_group4 :
    groupByOnset (1 / 20 : ℚ)
      [nt 60 0 (1 / 2), nt 63 0 (1 / 2), nt 66 0 (1 / 2), nt 75 0 (1 / 2)]
    = [(0, [nt 60 0 (1 / 2), nt 63 0 (1 / 2), nt 66 0 (1 / 2),
        nt 75 0 (1 / 2)])] := by
  norm_num [groupByOnset, addToGroups, dictAppend, appendFirstMatch, nt,
    abs_of_nonneg]

/-- The detector finds the one four-note chord on the scratch roll. -/
theorem c1_detect4 :
    detectChordsCore defaultChordConfig
      (⟨[nt 60 0 (1 / 2), nt 63 0 (1 / 2), nt 66 0 (1 / 2),
          nt 75 0 (1 / 2)], 120, (4, 4), 0⟩ : PianoRoll)
    = [⟨[nt 60 0 (1 / 2), nt 63 0 (1 / 2), nt 66 0 (1 / 2),
        nt 75 0 (1 / 2)], some 60⟩] := by
  unfold detectChordsCore
  rw [if_neg (show ¬((⟨[nt 60 0 (1 / 2), nt 63 0 (1 / 2), nt 66 0 (1 / 2),
        nt 75 0 (1 / 2)], 120, (4, 4), 0⟩ : PianoRoll).notes = []) from
      List.cons_ne_nil _ _),
    show defaultChordConfig.simultaneity_threshold = (1 / 20 : ℚ) from rfl,
    show (⟨[nt 60 0 (1 / 2), nt 63 0 (1 / 2), nt 66 0 (1 / 2),
        nt 75 0 (1 / 2)], 120, (4, 4), 0⟩ : PianoRoll).notes
      = [nt 60 0 (1 / 2), nt 63 0 (1 / 2), nt 66 0 (1 / 2),
          nt 75 0 (1 / 2)] from rfl,
    c1_group4]
  norm_num [defaultChordConfig, createChord, findRoot, nt,
    List.insertionSort, List.orderedInsert]

/-- `_simplify_chord_voicings` at chord size 2 keeps the outer voices. -/
theorem c1_voicings :
    simplifyChordVoicings 2
      [nt 60 0 (1 / 2), nt 75 0 (1 / 2), nt 63 0 (1 / 2), nt 66 0 (1 / 2)]
    = [nt 60 0 (1 / 2), nt 75 0 (1 / 2)] := by
  unfold simplifyChordVoicings
  dsimp only
  rw [c1_sortA, c1_detect4]
  norm_num [Chord.start, nt, List.insertionSort, List.orderedInsert,
    List.getLastD, abs_of_nonneg]

/-- The outer pair is already sorted by `(start, pitch)`. -/
theorem c1_sortB :
    sortByTime [nt 60 0 (1 / 2), nt 75 0 (1 / 2)]
    = [nt 60 0 (1 / 2), nt 75 0 (1 / 2)] := by
  norm_num [sortByTime, List.insertionSort, List.orderedInsert, keyLe, nt]

/-- The outer pair groups into a single onset bucket. -/
theorem c1_group2 :
    groupByOnset (1 / 20 : ℚ) [nt 60 0 (1 / 2), nt 75 0 (1 / 2)]
    = [(0, [nt 60 0 (1 / 2), nt 75 0 (1 / 2)])] := by
  norm_num [groupByOnset, addToGroups, dictAppend, appendFirstMatch, nt,
    abs_of_nonneg]

/-- The detector finds the one two-note chord on the scratch roll. -/
theorem c1_detect2 :
    detectChordsCore defaultChordConfig
      (⟨[nt 60 0 (1 / 2), nt 75 0 (1 / 2)], 120, (4, 4), 0⟩ : PianoRoll)
    = [⟨[nt 60 0 (1 / 2), nt 75 0 (1 / 2)], some 60⟩] := by
  unfold detectChordsCore
  rw [if_neg (show ¬((⟨[nt 60 0 (1 / 2), nt 75 0 (1 / 2)], 120, (4, 4),
        0⟩ : PianoRoll).notes = []) from List.cons_ne_nil _ _),
    show defaultChordConfig.simultaneity_threshold = (1 / 20 : ℚ) from rfl,
    show (⟨[nt 60 0 (1 / 2), nt 75 0 (1 / 2)], 120, (4, 4),
        0⟩ : PianoRoll).notes = [nt 60 0 (1 / 2), nt 75 0 (1 / 2)] from rfl,
    c1_group2]
  norm_num [defaultChordConfig, createChord, findRoot, nt,
    List.insertionSort, List.orderedInsert]

/-- `_reduce_stretches` keeps the outer voices of the wide pair — the
span stays 15 semitones. -/
theorem c1_stretches :
    reduceStretches 5 [nt 60 0 (1 / 2), nt 75 0 (1 / 2)]
    = [nt 60 0 (1 / 2), nt 75 0 (1 / 2)] := by
  unfold reduceStretches
  dsimp only
  rw [c1_sortB, c1_detect2]
  norm_num [Chord.start, nt, List.insertionSort, List.orderedInsert,
    List.getLastD, abs_of_nonneg]

/-- `_simplify_rhythms` leaves the half-second notes unchanged (the
closest allowed duration is exactly 1/2). -/
theorem c1_rhythms :
    simplifyRhythms [nt 60 0 (1 / 2), nt 75 0 (1 / 2)]
    = Except.ok [nt 60 0 (1 / 2), nt 75 0 (1 / 2)] := by
  norm_num [simplifyRhythms, mapExcept, mkNote, nt, Note.duration,
    abs_of_nonneg, abs_of_nonpos]

/-- `_remove_ornaments` keeps both half-second notes. -/
theorem c1_ornaments :
    removeOrnaments [nt 60 0 (1 / 2), nt 75 0 (1 / 2)]
    = [nt 60 0 (1 / 2), nt 75 0 (1 / 2)] := by
  norm_num [removeOrnaments, Note.duration, nt]

/-- The detector on the final beginner roll: one two-note chord. -/
theorem c1_detect_out :
    detectChordsCore defaultChordConfig c1out
    = [⟨[nt 60 0 (1 / 2), nt 75 0 (1 / 2)], some 60⟩] := by
  unfold detectChordsCore
  rw [if_neg (show ¬(c1out.notes = []) from List.cons_ne_nil _ _),
    show defaultChordConfig.simultaneity_threshold = (1 / 20 : ℚ) from rfl,
    show c1out.notes = [nt 60 0 (1 / 2), nt 75 0 (1 / 2)] from rfl,
    c1_group2]
  norm_num [defaultChordConfig, createChord, findRoot, nt,
    List.insertionSort, List.orderedInsert]

/-- The whole `_simplify` pass on the C1 roll: six notes become the outer
pair at the beginner tempo cap. -/
theorem c1_simplify :
    simplifyRoll (defaultDifficultyConfig DifficultyLevel.beginner) c1roll
    = Except.ok c1out := by
  unfold simplifyRoll
  dsimp only [defaultDifficultyConfig, LEVEL_PARAMS]
  rw [show c1roll.notes = [nt 60 0 (1 / 2), nt 63 0 (1 / 2), nt 66 0 (1 / 2),
      nt 69 0 (1 / 2), nt 72 0 (1 / 2), nt 75 0 (1 / 2)] from rfl]
  simp only [eq_self_iff_true, if_true]
  rw [c1_removeFast, c1_voicings, c1_stretches, c1_rhythms]
  dsimp only
  rw [c1_ornaments]
  norm_num [mkPianoRoll, c1roll, c1out, c1_sortB, min_def]

/-- `adjust_difficulty` from expert down to beginner takes the simplify
path. -/
theorem c1_adjust :
    adjustDifficulty (defaultDifficultyConfig DifficultyLevel.beginner)
      c1roll = Except.ok c1out := by
  unfold adjustDifficulty
  dsimp only [defaultDifficultyConfig]
  rw [c1_analyze,
    if_neg (show ¬(DifficultyLevel.expert = DifficultyLevel.beginner) by
      decide),
    if_pos (show levelIdx DifficultyLevel.beginner
        < levelIdx DifficultyLevel.expert by decide)]
  exact c1_simplify

/-- C1.  The difficulty round trip at the stated input, under the intent
model of the unparseable `difficulty_adjuster.py` (see the module-section
comments): the six-note, 12-notes-per-second, 15-semitone roll analyzes
as expert; adjusting to beginner returns the two outer voices at the
capped tempo; the output meets the notes-per-second (4 ≤ 4.0) and
simultaneity (2 ≤ 2) bounds but keeps a 15-semitone stretch, violating
the claimed 5-semitone bound. -/
theorem adjust_difficulty_beginner_eval :
    analyzeDifficulty c1roll = DifficultyLevel.expert ∧
      adjustDifficulty (defaultDifficultyConfig DifficultyLevel.beginner)
          c1roll = Except.ok c1out ∧
      notesPerSecond c1out = 4 ∧
      getMaxSimultaneousNotes c1out = 2 ∧
      getMaxHandStretch c1out = 15 ∧ ¬ getMaxHandStretch c1out ≤ 5 := by
  refine ⟨c1_analyze, c1_adjust, ?_, ?_, ?_, ?_⟩
  · norm_num [notesPerSecond, PianoRoll.get_duration, c1out, nt]
  · rw [getMaxSimultaneousNotes, c1_detect_out]
    norm_num [nt]
  · rw [getMaxHandStretch, c1_detect_out]
    norm_num [nt]
  · rw [getMaxHandStretch, c1_detect_out]
    norm_num [nt]
